import Mathlib

/-!
Verification development for the bitfinex_borrow_catcher repository.

This file shallowly embeds the decision engine (engine.go), the order-book
diff application (ws_orderbook.go), the sequence-number reorder buffer
(ws_orderbook.go, earlier revision kept in the repository), and the
credential encryption (auth.go), and proves or refutes the specification
claims about them.

Modelling conventions:
* `godec64.UDec64` values (amounts, rates) are 64-bit unsigned fixed-point
  integers; they are modelled as `Nat`, with an explicit `% 2 ^ 64` (`w64`)
  at the accumulation points where the Go code performs native wrapping
  `uint64` addition.  Subtractions in the Go code are all guarded by a
  preceding `>=` test, so truncated `Nat` subtraction agrees with the
  Go semantics at every reachable call site.
* `time.Time` and `time.Duration` are modelled as `Int` nanoseconds
  (Go stores times as nanoseconds from an absolute zero time; only
  differences, truncation and comparisons are used by the code under
  verification, all of which are representation-independent).  The
  `time.Duration` multiplication `24*time.Hour*time.Duration(period)` is
  an `int64` multiplication and is wrapped accordingly (`i64wrap`).
* The Go `float64` arithmetic of `prepareBorrowTask` (weighted rate sums
  produced via `UDec64.ToFloat64`) is modelled exactly, by unreduced
  integer fractions (`Frac`, kept unnormalised so that the kernel can
  evaluate them); every quantity these fractions model in this program
  is a sum/product/quotient of decimal fixed-point values.  All branch
  decisions taken on such values in the test fixtures have wide relative
  margins, so exact arithmetic and IEEE-754 double arithmetic take the
  same branches there.
* The exchange maps `map[string]bool` are modelled as lists of keys with
  set-once insertion.
-/

namespace BBC

/-- Modulus of 64-bit unsigned arithmetic. -/
def U64 : Nat := 18446744073709551616

/-- Wrap a natural number the way Go wraps native `uint64` arithmetic. -/
def w64 (n : Nat) : Nat := n % U64

/-- Reinterpret a (possibly large) integer the way Go wraps `int64`
arithmetic: two-sided wrap into `[-2^63, 2^63)`. -/
def i64wrap (n : Int) : Int := (n + 2 ^ 63) % 2 ^ 64 - 2 ^ 63

/-- Modelled from the spec of the external decimal library godec64
(treated by the specification as an external collaborator):
`a.Mul(b, tenPow, rounding)` multiplies two fixed-point values using a
128-bit intermediate product, divides by `10^tenPow` (adding half of the
divisor first when `rounding` is set) and truncates the result to 64 bits. -/
def udec64Mul (a b : Nat) (tenPow : Nat) (rounding : Bool) : Nat :=
  w64 ((a * b + if rounding then 10 ^ tenPow / 2 else 0) / 10 ^ tenPow)

/-- An exact, unnormalised fraction: the model of the `float64` values
appearing in `prepareBorrowTask`.  Every constructor below keeps the
denominator positive. -/
structure Frac where
  num : Int
  den : Int
deriving DecidableEq, Repr

/-- The fraction zero. -/
def Frac.zero : Frac := ⟨0, 1⟩

/-- Exact fraction addition (denominators stay positive). -/
def Frac.add (x y : Frac) : Frac :=
  ⟨x.num * y.den + y.num * x.den, x.den * y.den⟩

/-- Exact fraction subtraction. -/
def Frac.sub (x y : Frac) : Frac :=
  ⟨x.num * y.den - y.num * x.den, x.den * y.den⟩

/-- Exact fraction multiplication. -/
def Frac.mul (x y : Frac) : Frac := ⟨x.num * y.num, x.den * y.den⟩

/-- Exact fraction division; division by zero yields zero (division by
zero arises in the source only as `0.0 / 0.0`, a NaN whose comparisons
are all false; the fixtures never hit it). -/
def Frac.div (x y : Frac) : Frac :=
  if y.num = 0 then ⟨0, 1⟩
  else if y.num < 0 then ⟨-(x.num * y.den), -(x.den * y.num)⟩
  else ⟨x.num * y.den, x.den * y.num⟩

/-- Strict comparison of fractions with positive denominators. -/
def Frac.blt (x y : Frac) : Bool := decide (x.num * y.den < y.num * x.den)

/-- Non-strict comparison of fractions with positive denominators. -/
def Frac.ble (x y : Frac) : Bool := decide (x.num * y.den ≤ y.num * x.den)

/-- Value of an amount with 8 fractional digits
(`UDec64.ToFloat64(8)` in the source, modelled exactly). -/
def q8 (n : Nat) : Frac := ⟨n, 10 ^ 8⟩

/-- Value of a rate with 12 fractional digits
(`UDec64.ToFloat64(12)` in the source, modelled exactly). -/
def q12 (n : Nat) : Frac := ⟨n, 10 ^ 12⟩

/-! ## Data model (bitfinex.go / bitfinex_private.go) -/

/-- Side of an order (bitfinex.go). -/
inductive Side where
  | bid
  | offer
deriving DecidableEq, Repr, Inhabited

/-- A market listed by the exchange (bitfinex.go). -/
structure Market where
  Name : String
  BaseCurrency : String
  QuoteCurrency : String
deriving DecidableEq, Repr

/-- An order book entry (bitfinex.go): aggregated price level of the
funding book.  `Amount` and `Rate` are `UDec64` values. -/
structure OrderBookEntry where
  Id : Nat
  Period : Nat
  Amount : Nat
  Rate : Nat
deriving DecidableEq, Repr, Inhabited

/-- `OrderBookEntry.Cmp` from bitfinex.go compares by rate only (the
order-id comparison is commented out in the source). -/
def obeCmp (a b : OrderBookEntry) : Int :=
  if a.Rate < b.Rate then -1 else if a.Rate > b.Rate then 1 else 0

/-- An order book: bid side descending by rate, ask side ascending by
rate (bitfinex.go). -/
structure OrderBook where
  Bid : List OrderBookEntry
  Ask : List OrderBookEntry
deriving DecidableEq, Repr

/-- A funding credit (bitfinex_private.go): an active borrow annotated
with the market it backs.  The embedded `Loan` fields are flattened.
`CreateTime`/`UpdateTime` are nanosecond timestamps, `Amount`/`Rate`
are `UDec64` values, `SideVal` is the raw integer side field. -/
structure Credit where
  Id : Nat
  Currency : String
  SideVal : Int
  CreateTime : Int
  UpdateTime : Int
  Amount : Nat
  Status : String
  Rate : Nat
  Period : Nat
  Market : String
deriving DecidableEq, Repr

/-- A margin position (bitfinex_private.go). -/
structure Position where
  Id : Nat
  Market : String
  Status : String
  Amount : Nat
  Long : Bool
  BasePrice : Nat
  Funding : Nat
  LiqPrice : Nat
deriving DecidableEq, Repr

/-- A wallet balance (bitfinex_private.go); `typ` models the `Type`
field. -/
structure Balance where
  Currency : String
  typ : String
  Total : Nat
  Available : Nat
deriving DecidableEq, Repr

/-- Configuration snapshot (engine.go); durations in nanoseconds. -/
structure Config where
  Currency : String
  AutoLoanFetchPeriod : Int
  AutoLoanFetchShift : Int
  AutoLoanFetchEndShift : Int
  MinRateDifference : Frac
  MinOrderAmount : Nat
deriving DecidableEq, Repr

/-- A borrow task (engine.go). -/
structure BorrowTask where
  TotalBorrow : Nat
  LoanIdsToClose : List Nat
  Rate : Nat
deriving DecidableEq, Repr

/-- The engine state relevant to the pure decision functions
(engine.go): the two market maps and the configuration. -/
structure Engine where
  baseCurrMarkets : List String
  quoteCurrMarkets : List String
  config : Config
deriving DecidableEq, Repr

/-! ## PrepareMarkets and calculateTotalBorrow (engine.go) -/

/-- Set-once insertion, modelling `m[key] = true` on a `map[string]bool`. -/
def mapInsert (m : List String) (key : String) : List String :=
  if m.contains key then m else m ++ [key]

/-- `Engine.PrepareMarkets` (engine.go, lines 186-196): scans the market
list and fills the base/quote currency market maps.  Note that the source
inserts `eng.config.Currency` (not `m.Name`) as the key on both sides;
this function reproduces that behaviour exactly. -/
def prepareMarkets (currency : String) (markets : List Market) :
    List String × List String :=
  markets.foldl (fun maps m =>
    if currency == m.BaseCurrency then (mapInsert maps.1 currency, maps.2)
    else if currency == m.QuoteCurrency then (maps.1, mapInsert maps.2 currency)
    else maps) ([], [])

/-- The position-value accumulation loop of `calculateTotalBorrow`
(engine.go, lines 231-245): long positions on quote-currency markets
contribute `Amount.Mul(BasePrice, 8, true)`, short positions on
base-currency markets contribute `Amount`; native `uint64` addition. -/
def posTotalVal (eng : Engine) (poss : List Position) : Nat :=
  poss.foldl (fun acc p =>
    if p.Long then
      if eng.quoteCurrMarkets.contains p.Market then
        w64 (acc + udec64Mul p.Amount p.BasePrice 8 true)
      else acc
    else
      if eng.baseCurrMarkets.contains p.Market then w64 (acc + p.Amount)
      else acc) 0

/-- `Engine.calculateTotalBorrow` (engine.go, lines 222-249): the balance
of the configured currency (first match wins) is subtracted from the
total position value, clamped at zero. -/
def calculateTotalBorrow (eng : Engine) (poss : List Position)
    (bals : List Balance) : Nat :=
  let totalBal : Nat :=
    ((bals.find? (fun b => b.Currency == eng.config.Currency)).map
      Balance.Total).getD 0
  let pv := posTotalVal eng poss
  if totalBal < pv then pv - totalBal else 0

/-! ## Credit classification (engine.go, lines 264-279) -/

/-- `time.Time.Truncate` for a positive duration: round down to a
multiple of `d` since the absolute zero time. -/
def goTruncate (t d : Int) : Int := if d ≤ 0 then t else t - t % d

/-- Expiration time of a credit: `CreateTime + 24h * Period`
(engine.go line 267); the duration product is `int64` arithmetic. -/
def creditExpireTime (c : Credit) : Int :=
  c.CreateTime + i64wrap (86400000000000 * (c.Period : Int))

/-- The next auto-loan tick as computed in `prepareBorrowTask`
(engine.go, lines 268-273): truncate `now` to the fetch period, add the
shift, and advance by one period if the result is still before `now`. -/
def nextAutoLoanTime (cfg : Config) (now : Int) : Int :=
  let a := goTruncate now cfg.AutoLoanFetchPeriod + cfg.AutoLoanFetchShift
  if a < now then a + cfg.AutoLoanFetchPeriod else a

/-- Classification used by `prepareBorrowTask` (engine.go line 274):
a credit is *normal* iff the next auto-loan tick is not after its
expiration time (`!afterAutoLoanTime.After(expireTime)`). -/
def creditIsNormal (cfg : Config) (now : Int) (c : Credit) : Bool :=
  decide (nextAutoLoanTime cfg now ≤ creditExpireTime c)

/-! ## prepareBorrowTask (engine.go, lines 251-395) -/

/-- State of the ask-book cursor shared by all `obFill` calls inside one
`prepareBorrowTask` run: the not-yet-consumed suffix of the ask side
(`obi` cursor), the amount already consumed from its head entry
(`obFilled`), the global consumed total (`obTotalAmount`, float in the
source) and the rate of the last consumed ask (`taskRate`). -/
structure FillSt where
  askRest : List OrderBookEntry
  obFilled : Nat
  obTotalAmount : Frac
  taskRate : Nat
deriving DecidableEq, Repr

/-- Recursion core of `obFill`, structurally recursive over the
remaining ask entries; carries `obFilled`, `obTotalAmount` and
`taskRate` through the consumption loop. -/
def obFillGo (ask : List OrderBookEntry) (obFilled : Nat)
    (obTotalAmount : Frac) (taskRate : Nat) (csAmount : Nat) (acc : Frac) :
    FillSt × Nat × Frac × Bool :=
  match ask with
  | [] =>
      if csAmount ≠ 0 then
        (⟨[], obFilled, obTotalAmount, taskRate⟩, csAmount, acc, false)
      else (⟨[], obFilled, obTotalAmount, taskRate⟩, 0, acc, true)
  | e :: rest =>
      let avail := e.Amount - obFilled
      if avail ≤ csAmount then
        obFillGo rest 0 (obTotalAmount.add (q8 avail)) e.Rate
          (csAmount - avail) (acc.add ((q8 avail).mul (q12 e.Rate)))
      else if csAmount ≠ 0 then
        (⟨e :: rest, obFilled + csAmount,
          obTotalAmount.add (q8 csAmount), e.Rate⟩,
         0, acc.add ((q8 csAmount).mul (q12 e.Rate)), true)
      else (⟨e :: rest, obFilled, obTotalAmount, taskRate⟩, 0, acc, true)

/-- The `obFill` closure of `prepareBorrowTask` (engine.go, lines
290-312): consume `csAmount` from the ask cursor.  Returns the updated
cursor state, the leftover amount, this call's weighted rate sum
(`obAmountRate`) and the flag that is `false` iff the book was exhausted
with a nonzero leftover. -/
def obFill (st : FillSt) (csAmount : Nat) (acc : Frac) :
    FillSt × Nat × Frac × Bool :=
  obFillGo st.askRest st.obFilled st.obTotalAmount st.taskRate csAmount acc

/-- The best-case reference scan of `prepareBorrowTask` (engine.go, lines
327-339): weighted rate of the first `csAmount` worth of asks from the
bottom of the book, independent of the cursor.  Returns the leftover
(`csAmountLeft`) and the weighted sum (`lowObAmountRate`). -/
def lowObScan (ask : List OrderBookEntry) (csAmount : Nat) (acc : Frac) :
    Nat × Frac :=
  match ask with
  | [] => (csAmount, acc)
  | e :: rest =>
      if e.Amount ≤ csAmount then
        lowObScan rest (csAmount - e.Amount)
          (acc.add ((q8 e.Amount).mul (q12 e.Rate)))
      else (0, acc.add ((q8 csAmount).mul (q12 e.Rate)))

/-- The held-credits reference scan of `prepareBorrowTask` (engine.go,
lines 347-359): weighted rate of the top-`csAmount` worth of held normal
credits, scanning from the highest rate down.  `revNorm` is the sorted
normal credit list reversed (highest rate first). -/
def hcsScan (revNorm : List Credit) (csAmount : Nat) (acc : Frac) : Frac :=
  match revNorm with
  | [] => acc
  | c :: rest =>
      if c.Amount ≤ csAmount then
        hcsScan rest (csAmount - c.Amount)
          (acc.add ((q8 c.Amount).mul (q12 c.Rate)))
      else acc.add ((q8 csAmount).mul (q12 c.Rate))

/-- Loop state of the main credit loop of `prepareBorrowTask`: the ask
cursor, the running weighted sums, and the task being built. -/
structure LoopSt where
  fill : FillSt
  obSumAmountRate : Frac
  csSumAmountRate : Frac
  csTotalAmount : Frac
  task : BorrowTask
deriving DecidableEq, Repr

/-- The main loop of `prepareBorrowTask` over normal credits (engine.go,
lines 317-372), iterating from the highest rate down (`creds` is the
sorted list reversed).  `revNorm` is the full reversed sorted list used
by the held-credits reference scan, `ask` the full ask side used by the
best-case reference scan. -/
def normLoop (mrd : Frac) (ask : List OrderBookEntry) (revNorm : List Credit) :
    List Credit → LoopSt → LoopSt
  | [], st => st
  | c :: creds, st =>
      let csAmount := c.Amount
      let csEntryAmount := q8 csAmount
      let csAmountRate := csEntryAmount.mul (q12 c.Rate)
      let r := obFill st.fill csAmount Frac.zero
      let fill1 := r.1
      let obAmountRate := r.2.2.1
      if !r.2.2.2 then { st with fill := fill1 }
      else
        let low := lowObScan ask csAmount Frac.zero
        if low.1 == 0 && csAmountRate.blt low.2 then { st with fill := fill1 }
        else
          let hcsAmountRate := hcsScan revNorm csAmount Frac.zero
          if hcsAmountRate.blt obAmountRate then { st with fill := fill1 }
          else
            let obSum := st.obSumAmountRate.add obAmountRate
            let csSum := st.csSumAmountRate.add csAmountRate
            let csTot := st.csTotalAmount.add csEntryAmount
            if (obSum.div fill1.obTotalAmount).ble
                ((csSum.div csTot).mul (Frac.sub ⟨1, 1⟩ mrd)) then
              normLoop mrd ask revNorm creds
                { fill := fill1, obSumAmountRate := obSum,
                  csSumAmountRate := csSum, csTotalAmount := csTot,
                  task := { TotalBorrow := w64 (st.task.TotalBorrow + csAmount),
                            LoanIdsToClose := st.task.LoanIdsToClose ++ [c.Id],
                            Rate := fill1.taskRate } }
            else
              { st with fill := fill1, obSumAmountRate := obSum,
                        csSumAmountRate := csSum, csTotalAmount := csTot }

/-- The to-expire credit loop of `prepareBorrowTask` (engine.go, lines
375-382): consume each expiring credit from the book and add it to the
total without closing it. -/
def expLoop : List Credit → FillSt × BorrowTask → FillSt × BorrowTask
  | [], st => st
  | c :: creds, (fill, task) =>
      let r := obFill fill c.Amount Frac.zero
      if !r.2.2.2 then (r.1, task)
      else
        expLoop creds
          (r.1, { task with TotalBorrow := w64 (task.TotalBorrow + c.Amount),
                            Rate := r.1.taskRate })

/-- Sum of all credit amounts as computed at the top of
`prepareBorrowTask` (engine.go, lines 253-256), with native `uint64`
wrapping addition. -/
def totalCreditsSum (credits : List Credit) : Nat :=
  credits.foldl (fun acc c => w64 (acc + c.Amount)) 0

/-- Ordering used by `sort.Sort(CreditsSort(normCredits))`: ascending by
rate.  The Go sort is unstable and leaves the relative order of
equal-rate credits unspecified; the model uses insertion sort, one of
the permitted outcomes. -/
def sortCredits (credits : List Credit) : List Credit :=
  credits.insertionSort (fun a b => a.Rate ≤ b.Rate)

/-- `Engine.prepareBorrowTask` (engine.go, lines 251-395). -/
def prepareBorrowTask (cfg : Config) (ob : OrderBook) (credits : List Credit)
    (totalBorrow : Nat) (now : Int) : BorrowTask :=
  let totalCredits := totalCreditsSum credits
  if ob.Ask.length = 0 then ⟨0, [], 0⟩
  else if credits.length = 0 then ⟨0, [], 0⟩
  else
    let normCredits := credits.filter (fun c => creditIsNormal cfg now c)
    let toExpireCredits := credits.filter (fun c => !creditIsNormal cfg now c)
    let sorted := sortCredits normCredits
    let st0 : LoopSt :=
      { fill := { askRest := ob.Ask, obFilled := 0,
                  obTotalAmount := Frac.zero, taskRate := 0 },
        obSumAmountRate := Frac.zero, csSumAmountRate := Frac.zero,
        csTotalAmount := Frac.zero, task := ⟨0, [], 0⟩ }
    let st1 := normLoop cfg.MinRateDifference ob.Ask sorted.reverse
      sorted.reverse st0
    let st2 := expLoop toExpireCredits (st1.fill, st1.task)
    let task2 := st2.2
    if task2.TotalBorrow ≠ 0 ∧ totalBorrow > totalCredits then
      let rest := totalBorrow - totalCredits
      let r := obFill st2.1 rest Frac.zero
      { task2 with TotalBorrow := w64 (task2.TotalBorrow + (rest - r.2.1)),
                   Rate := r.1.taskRate }
    else task2

/-! ## Test fixtures (engine_test.go) -/

/-- The fixture time 2021-09-14 15:37:11 UTC, in nanoseconds from the
absolute zero time (unix 1631633831 plus the 62135596800 s offset). -/
def fixtureNow : Int := 63767230631000000000

/-- One nanosecond-hour. -/
def nsHour : Int := 3600000000000

/-- The test engine configuration (`getTestEngine0` in engine_test.go):
period 20 m, shift 15 m, end shift 9 m 20 s, min rate difference 0.2. -/
def fixtureConfig : Config :=
  { Currency := "UST", AutoLoanFetchPeriod := 1200000000000,
    AutoLoanFetchShift := 900000000000,
    AutoLoanFetchEndShift := 560000000000,
    MinRateDifference := ⟨2, 10⟩, MinOrderAmount := 150 }

/-- The S2 fixture order book (engine_test.go, `TestPrepareBorrowTask`). -/
def fixtureBook : OrderBook :=
  { Bid := [⟨0, 2, 16000000000, 6611000000⟩, ⟨1, 2, 16000000000, 5221000000⟩],
    Ask := [⟨10, 2, 16000000000, 4111000000⟩,
            ⟨11, 3, 20200000000, 4112000000⟩,
            ⟨12, 2, 134177000000, 4115000000⟩,
            ⟨13, 2, 53400000000, 4118000000⟩,
            ⟨14, 2, 78800000000, 4125000000⟩] }

/-- Builder for the fixture credits (period 2, status ACTIVE). -/
def fixtureCredit (i : Nat) (ct : Int) (amt rate : Nat) (mkt : String) :
    Credit :=
  { Id := i, Currency := "UST", SideVal := -1, CreateTime := ct,
    UpdateTime := ct, Amount := amt, Status := "ACTIVE", Rate := rate,
    Period := 2, Market := mkt }

/-- The S2 fixture credits. -/
def fixtureCredits : List Credit :=
  [fixtureCredit 100 (fixtureNow - 24 * nsHour) 32455000000 7321000000 "BTCUST",
   fixtureCredit 101 (fixtureNow - 23 * nsHour) 2441355000000 6663000000 "BTCUST",
   fixtureCredit 102 (fixtureNow - 22 * nsHour) 141355000000 8934000000 "ADAUST"]

/-- The S1 fixture engine: market maps as set up directly by the test
(`getTestEngine0`), bypassing `PrepareMarkets`. -/
def fixtureEngine : Engine :=
  { baseCurrMarkets := ["USTUSD"], quoteCurrMarkets := ["BTCUST", "ADAUST"],
    config := fixtureConfig }

/-- The S1 fixture positions (`TestCalculateTotalBorrow`). -/
def fixturePositions : List Position :=
  [{ Id := 0, Market := "BTCUST", Status := "", Amount := 155000000,
     Long := true, BasePrice := 211000000000, Funding := 0, LiqPrice := 0 },
   { Id := 0, Market := "BTCUSD", Status := "", Amount := 452000000,
     Long := true, BasePrice := 661000000000, Funding := 0, LiqPrice := 0 },
   { Id := 0, Market := "ADAUST", Status := "", Amount := 1355000000,
     Long := true, BasePrice := 140000000000, Funding := 0, LiqPrice := 0 },
   { Id := 0, Market := "USTUSD", Status := "", Amount := 2334000000,
     Long := false, BasePrice := 99100000, Funding := 0, LiqPrice := 0 }]

/-- The S1 fixture balances. -/
def fixtureBalances : List Balance :=
  [{ Currency := "UST", typ := "", Total := 120000000, Available := 0 },
   { Currency := "USD", typ := "", Total := 11100000000, Available := 0 }]

/-- Boundary configuration for the C4 counterexample: period 20 m,
shift 15 m. -/
def boundaryConfig : Config :=
  { Currency := "UST", AutoLoanFetchPeriod := 1200000000000,
    AutoLoanFetchShift := 900000000000,
    AutoLoanFetchEndShift := 560000000000,
    MinRateDifference := ⟨2, 10⟩, MinOrderAmount := 150 }

/-- Time instant for the C4 counterexample. -/
def boundaryNow : Int := 200000000000000

/-- A credit whose expiration time equals the next auto-loan tick
(`createTime = nextAutoLoanTime - 48h`, period 2). -/
def boundaryCredit : Credit :=
  fixtureCredit 1 27300000000000 1000 1000 "BTCUST"

/-- The market list for the C5 evaluation: BTCUST has base BTC and
quote UST. -/
def marketsC5 : List Market :=
  [{ Name := "BTCUST", BaseCurrency := "BTC", QuoteCurrency := "UST" }]

/-- The engine state produced by running `PrepareMarkets` with currency
UST over `marketsC5`. -/
def engineC5 : Engine :=
  { baseCurrMarkets := (prepareMarkets "UST" marketsC5).1,
    quoteCurrMarkets := (prepareMarkets "UST" marketsC5).2,
    config := fixtureConfig }

/-- A long BTCUST position. -/
def positionC5 : Position :=
  { Id := 0, Market := "BTCUST", Status := "", Amount := 155000000,
    Long := true, BasePrice := 211000000000, Funding := 0, LiqPrice := 0 }

/-! ## Claim C2: the borrow-task invariant -/

/-- Mathematical (unwrapped) sum of the amounts of a credit list. -/
def creditsAmountSum (l : List Credit) : Nat := (l.map Credit.Amount).sum

/-- Configuration for the C2 counterexample (min rate difference 0). -/
def dupConfig : Config :=
  { Currency := "UST", AutoLoanFetchPeriod := 1200000000000,
    AutoLoanFetchShift := 900000000000,
    AutoLoanFetchEndShift := 560000000000,
    MinRateDifference := ⟨0, 1⟩, MinOrderAmount := 150 }

/-- Time instant for the C2 counterexample. -/
def dupNow : Int := 500000000000

/-- A one-level ask book holding amount 10 at rate 1. -/
def dupBook : OrderBook := { Bid := [], Ask := [⟨1, 2, 10, 1⟩] }

/-- Two normal credits sharing id 7, with amounts 10 and 5. -/
def dupCredits : List Credit :=
  [{ Id := 7, Currency := "UST", SideVal := -1, CreateTime := dupNow,
     UpdateTime := dupNow, Amount := 10, Status := "ACTIVE", Rate := 1000,
     Period := 2, Market := "BTCUST" },
   { Id := 7, Currency := "UST", SideVal := -1, CreateTime := dupNow,
     UpdateTime := dupNow, Amount := 5, Status := "ACTIVE", Rate := 999,
     Period := 2, Market := "BTCUST" }]

/-! ## Order-book diff application (ws_orderbook.go, lines 32-140) -/

/-- A single order-book difference event (ws_orderbook.go).  The entry
side names which side of the book the diff addresses. -/
structure OrderBookEntryDiff where
  Side : Side
  Obe : OrderBookEntry
deriving DecidableEq, Repr, Inhabited

/-- The binary-search loop of `applyDiff`: starting from `i, j`, narrow
on the predicate `p` (true means the probed element lies strictly before
the diff entry, advancing `i` past it).  `fuel` bounds the iteration
count; `j - i` at least halves each round, so `fuel = length` always
suffices. -/
def bsLoop (p : Nat → Bool) : Nat → Nat → Nat → Nat
  | 0, i, _ => i
  | fuel + 1, i, j =>
      if i < j then
        let h := (i + j) / 2
        if p h then bsLoop p fuel (h + 1) j else bsLoop p fuel i h
      else i

/-- One side of `OrderBook.applyDiff` (ws_orderbook.go): both the bid
and the ask branch of the source are the same algorithm up to the
direction of the comparator, abstracted here as `after obe e`, the
source's `diff.Obe.Cmp(&ett[h]) < 0` (bid) respectively `> 0` (ask)
probe: true when the diff entry belongs strictly after `e`.  A diff
with zero rate deletes the entry with the matching id; otherwise the
entry at the diff's rate is replaced, or the diff entry is inserted at
its sorted position, truncating the side to `maxDepth` (the capacity of
the source slice). -/
def applyDiffSide (after : OrderBookEntry → OrderBookEntry → Bool)
    (maxDepth : Nat) (ett : List OrderBookEntry) (obe : OrderBookEntry) :
    List OrderBookEntry :=
  let n := ett.length
  let toDelete := obe.Rate == 0
  let i := if toDelete then ett.findIdx (fun e => e.Id == obe.Id)
    else bsLoop (fun h => after obe (ett.getD h ⟨0, 0, 0, 0⟩)) n 0 n
  if i < n then
    let r := obeCmp obe (ett.getD i ⟨0, 0, 0, 0⟩)
    let d1 := if !toDelete then ett.take i ++ [obe] else ett.take i
    let i2 := if r == 0 || toDelete then i + 1 else i
    let destLen := d1.length
    let xlen : Int :=
      if (n : Int) > ((maxDepth : Int) - destLen) + i2 then
        ((maxDepth : Int) - destLen) + i2
      else n
    if i2 ≤ n then d1 ++ (ett.take xlen.toNat).drop i2 else d1
  else if n < maxDepth && !toDelete then ett ++ [obe] else ett

/-- `OrderBook.applyDiff` (ws_orderbook.go, lines 32-140): apply one
diff to the addressed side (bid comparator descending, ask comparator
ascending) and copy the opposite side verbatim.  `mdBid`/`mdAsk` are the
capacities of the two side slices of the source book. -/
def applyDiff (mdBid mdAsk : Nat) (stmp : OrderBook)
    (diff : OrderBookEntryDiff) : OrderBook :=
  if diff.Side = Side.bid then
    { Bid := applyDiffSide (fun o e => decide (obeCmp o e < 0)) mdBid
        stmp.Bid diff.Obe,
      Ask := stmp.Ask }
  else
    { Ask := applyDiffSide (fun o e => decide (obeCmp o e > 0)) mdAsk
        stmp.Ask diff.Obe,
      Bid := stmp.Bid }

/-! ## The seqNo reorder buffer (ws_orderbook.go revision in the
repository, seqNoHandler, lines 41-168) -/

/-- Capacity of the reorder buffer (`seqNoElemsNum`). -/
def seqNoElemsNum : Nat := 30

/-- State of `seqNoHandler`, generic over the buffered element type
`α` (the source stores `seqNoElem` interface values).  `seqNos` always
has length 30.  `seqNosNum` is the Go `int` field (the extent of the
occupied range). -/
structure SeqNoHandler (α : Type) where
  haveSeqNo : Bool
  startSeqNo : Nat
  seqNosNum : Int
  seqNos : List (Option α)
deriving DecidableEq, Repr

/-- A fresh (or cleared) handler: `seqNoHandler.clear`. -/
def seqClear {α : Type} (nh : SeqNoHandler α) : SeqNoHandler α :=
  { nh with
    haveSeqNo := false, seqNosNum := 0,
    seqNos := List.replicate seqNoElemsNum none }

/-- The zero-value handler state of a freshly created Go struct. -/
def seqInit (α : Type) : SeqNoHandler α :=
  { haveSeqNo := false, startSeqNo := 0, seqNosNum := 0,
    seqNos := List.replicate seqNoElemsNum none }

/-- `seqNoHandler.push` (ws_orderbook.go, lines 59-154), with effects
reified: instead of invoking `process()` on elements, the call returns
the list of processed elements in processing order, together with the
boolean result of the source (`false` signals missed sequence numbers).
`none` models the source's collision panic (a seqNo arriving twice
inside the buffered window).  `seqOf` projects the sequence number out
of an element.  `fuel` bounds the source's self-recursion, which never
nests more than once (after the no-space shift the element is always in
the window); sequence numbers are modelled as unbounded naturals, and
the no-space distance computation (a `uint64`-to-`int` conversion in
the source) is taken at face value, which agrees with the source
whenever sequence numbers stay below `2^63`. -/
def pushGo {α : Type} (seqOf : α → Nat) :
    Nat → SeqNoHandler α → α → Option (SeqNoHandler α × List α × Bool)
  | 0, _, _ => none
  | fuel + 1, nh, nelem =>
      let n := seqOf nelem
      if nh.seqNosNum = 0 then
        if !nh.haveSeqNo then
          some ({ nh with haveSeqNo := true, startSeqNo := n + 1 },
            [nelem], true)
        else if n < nh.startSeqNo then some (nh, [], false)
        else if nh.startSeqNo = n then
          some ({ nh with startSeqNo := n + 1 }, [nelem], true)
        else if n - nh.startSeqNo < seqNoElemsNum then
          some ({ nh with
            seqNos := nh.seqNos.set (n - nh.startSeqNo) (some nelem),
            seqNosNum := (n : Int) - nh.startSeqNo + 1 }, [], true)
        else
          some ({ nh with
            startSeqNo := n - (seqNoElemsNum - 1),
            seqNos := nh.seqNos.set (seqNoElemsNum - 1) (some nelem),
            seqNosNum := (seqNoElemsNum : Int) }, [], false)
      else
        if n < nh.startSeqNo then some (nh, [], false)
        else if n - nh.startSeqNo < seqNoElemsNum then
          if (nh.seqNos.getD (n - nh.startSeqNo) none).isSome then none
          else
            let slots1 := nh.seqNos.set (n - nh.startSeqNo) (some nelem)
            let i := (slots1.takeWhile (fun o => o.isSome)).length
            let processed := (slots1.take i).reduceOption
            let start1 := nh.startSeqNo + i
            let slots2 := slots1.drop i ++ List.replicate i none
            if slots2.all (fun o => o.isNone) then
              some ({ nh with
                startSeqNo := start1, seqNos := slots2,
                seqNosNum := 0 }, processed, true)
            else
              let v : Int :=
                i64wrap (((n : Int) - start1 + 1) % (2 ^ 64))
              some ({ nh with
                startSeqNo := start1, seqNos := slots2,
                seqNosNum :=
                  if nh.seqNosNum - i < v then v else nh.seqNosNum - i },
                processed, true)
        else
          let toProcess : Int :=
            min ((n : Int) - nh.startSeqNo - (seqNoElemsNum - 1))
              (seqNoElemsNum : Int)
          let t := toProcess.toNat
          let processed := (nh.seqNos.take t).reduceOption
          let start1 :=
            if toProcess = (seqNoElemsNum : Int) then n - (seqNoElemsNum - 1)
            else nh.startSeqNo + t
          let slots2 := nh.seqNos.drop t ++ List.replicate t none
          let nh1 : SeqNoHandler α :=
            { nh with
              startSeqNo := start1, seqNos := slots2,
              seqNosNum := nh.seqNosNum - toProcess }
          match pushGo seqOf fuel nh1 nelem with
          | none => none
          | some (nh2, out2, _) => some (nh2, processed ++ out2, false)

/-- `seqNoHandler.push`: two fuel units cover the single possible
self-recursion. -/
def seqPush {α : Type} (seqOf : α → Nat) (nh : SeqNoHandler α)
    (nelem : α) : Option (SeqNoHandler α × List α × Bool) :=
  pushGo seqOf 2 nh nelem

/-- Run a whole sequence of pushes from a starting state, concatenating
the processed outputs; a collision panic aborts the run. -/
def seqRun {α : Type} (seqOf : α → Nat) :
    SeqNoHandler α → List α → SeqNoHandler α × List α
  | nh, [] => (nh, [])
  | nh, e :: es =>
      match seqPush seqOf nh e with
      | none => (nh, [])
      | some (nh1, out, _) =>
          let r := seqRun seqOf nh1 es
          (r.1, out ++ r.2)

/-! ## Real-time order-book handle (ws_orderbook.go revision in the
repository, rtOrderBookHandle, lines 296-470) -/

/-- State of `rtOrderBookHandle` relevant to diff pushing: the last
acknowledged snapshot with its sequence number, the reorder handler
(buffering `(seqNo, diff)` events whose `process()` appends them to
`pendings`), and the pending processed diffs. -/
structure RtOBState where
  initialSeqNo : Nat
  initial : OrderBook
  haveInitial : Bool
  snh : SeqNoHandler (Nat × OrderBookEntryDiff)
  pendings : List (Nat × OrderBookEntryDiff)
deriving DecidableEq, Repr

/-- Successive applications of a diff list, returning every intermediate
book (the `toHandle` array of `tryProcessInt`). -/
def scanApply (md : Nat) (ob : OrderBook) :
    List OrderBookEntryDiff → List OrderBook
  | [] => []
  | d :: ds =>
      let ob1 := applyDiff md md ob d
      ob1 :: scanApply md ob1 ds

/-- `rtOrderBookHandle.tryProcessInt` (ws_orderbook.go): fold the
pending diffs newer than the snapshot into the snapshot, or drop stale
state.  Returns the number of books to publish, the books, the
have-output flag, and the updated state. -/
def tryProcessInt (md : Nat) (st : RtOBState) :
    Nat × List OrderBook × Bool × RtOBState :=
  if st.pendings.length = 0 ∨ st.haveInitial = false then (0, [], false, st)
  else if ¬ (st.initialSeqNo + 1 ≥ (st.pendings.headD (0, default)).1) then
    (0, [], false, { st with initial := ⟨[], []⟩, haveInitial := false })
  else
    let i := (st.pendings.takeWhile (fun p => p.1 ≤ st.initialSeqNo)).length
    if i = st.pendings.length then (0, [], false, { st with pendings := [] })
    else
      let books := scanApply md st.initial ((st.pendings.drop i).map Prod.snd)
      (books.length, books, true,
        { st with
          initial := books.getLastD st.initial,
          initialSeqNo := (st.pendings.getLastD (0, default)).1,
          pendings := [] })

/-- `rtOrderBookHandle.pushDiffInt` (ws_orderbook.go, lines 369-384):
push one diff through the reorder handler (processed events are appended
to `pendings`); when the handler reports missed sequence numbers
(`push` returned false) the handler is cleared and the snapshot dropped
before attempting to process.  Returns
`((toHandleNum, toHandle, haveOut, needInitial), state)`; `none` models
the collision panic. -/
def pushDiffInt (md : Nat) (st : RtOBState) (seqNo : Nat)
    (diff : OrderBookEntryDiff) :
    Option ((Nat × List OrderBook × Bool × Bool) × RtOBState) :=
  match seqPush (fun p => p.1) st.snh (seqNo, diff) with
  | none => none
  | some (snh1, processed, ok) =>
      let st1 : RtOBState :=
        { st with
          snh := snh1, pendings := st.pendings ++ processed }
      if !ok then
        let st2 : RtOBState :=
          { st1 with
            snh := seqClear st1.snh, initial := ⟨[], []⟩,
            haveInitial := false }
        let r := tryProcessInt md st2
        some ((r.1, r.2.1, r.2.2.1, r.2.2.2.haveInitial), r.2.2.2)
      else
        let r := tryProcessInt md st1
        some ((r.1, r.2.1, r.2.2.1, r.2.2.2.haveInitial), r.2.2.2)

/-! ## Credential encryption (auth.go) -/

/-- Bytewise XOR of two equal-length byte strings. -/
def xorBytes (a b : List Nat) : List Nat := List.zipWith Nat.xor a b

/-- Fuel-driven chunking core (structural, so the kernel can evaluate
it); `fuel ≥ l.length` always suffices. -/
def chunks16Go : Nat → List Nat → List (List Nat)
  | 0, _ => []
  | _, [] => []
  | fuel + 1, l => l.take 16 :: chunks16Go fuel (l.drop 16)

/-- Split a byte string into 16-byte cipher blocks. -/
def chunks16 (l : List Nat) : List (List Nat) := chunks16Go l.length l

/-- CBC encryption over a block list (`cipher.NewCBCEncrypter` followed
by `CryptBlocks` in the source), parameterised by the block cipher. -/
def cbcEncBlocks (enc : List Nat → List Nat) :
    List Nat → List (List Nat) → List (List Nat)
  | _, [] => []
  | prev, b :: bs =>
      let c := enc (xorBytes prev b)
      c :: cbcEncBlocks enc c bs

/-- CBC decryption over a block list (`cipher.NewCBCDecrypter`). -/
def cbcDecBlocks (dec : List Nat → List Nat) :
    List Nat → List (List Nat) → List (List Nat)
  | _, [] => []
  | prev, c :: cs => xorBytes prev (dec c) :: cbcDecBlocks dec c cs

/-- `genAESKey` (auth.go, lines 80-89): fold the 64-byte password key
hash into 32 bytes by XOR-ing its 32-byte chunks (indices beyond the
end contribute nothing, matching the source's bounds check). -/
def genAESKey (password : List Nat) : List Nat :=
  (List.range 32).map (fun j =>
    (List.range ((password.length + 31) / 32)).foldl
      (fun acc i => acc ^^^ password.getD (32 * i + j) 0) 0)

/-- `encryptExchAuth` (auth.go, lines 91-122), parameterised by the
block-cipher family `aes` mapping a key to an (encrypt, decrypt) block
pair (the AES implementation is Go standard-library code external to
the repository).  The plaintext layout is
`[apiKeyLen:2 LE][apiKey][secretLen:2 LE][secret]`, zero-padded to a
block boundary, followed by one sentinel block of 0x75 bytes; the
ciphertext is prefixed by the IV.  The source draws `iv` from the
system randomness; here it is a parameter. -/
def encryptExchAuth
    (aes : List Nat → (List Nat → List Nat) × (List Nat → List Nat))
    (passwordHash apiKey secretKey iv : List Nat) : List Nat :=
  let key := genAESKey passwordHash
  let apiKeyLen := apiKey.length
  let secretKeyLen := secretKey.length
  let totLen := 4 + apiKeyLen + secretKeyLen
  let ciphLen := ((totLen + 15) / 16) * 16
  let textPlain :=
    [apiKeyLen % 256, apiKeyLen / 256 % 256] ++ apiKey ++
    [secretKeyLen % 256, secretKeyLen / 256 % 256] ++ secretKey ++
    List.replicate (ciphLen - totLen) 0 ++ List.replicate 16 117
  iv ++ (cbcEncBlocks (aes key).1 iv (chunks16 textPlain)).flatten

/-- `decryptExchAuth` (auth.go, lines 124-156): `none` models the
source's panics (wrong sentinel, inconsistent lengths). -/
def decryptExchAuth
    (aes : List Nat → (List Nat → List Nat) × (List Nat → List Nat))
    (passwordHash ciphData : List Nat) : Option (List Nat × List Nat) :=
  let key := genAESKey passwordHash
  let iv := ciphData.take 16
  let ciphText := ciphData.drop 16
  let ciphLen := ciphText.length
  let plainData := (cbcDecBlocks (aes key).2 iv (chunks16 ciphText)).flatten
  if (List.range 16).all
      (fun i => plainData.getD (ciphLen - 16 + i) 0 == 117) then
    let apiKeyLen := plainData.getD 0 0 + plainData.getD 1 0 * 256
    if (apiKeyLen + 2 : Int) > (ciphLen : Int) - 16 then none
    else
      let secretKeyLen :=
        plainData.getD (2 + apiKeyLen) 0 + plainData.getD (3 + apiKeyLen) 0 * 256
      if (apiKeyLen + secretKeyLen + 4 : Int) > (ciphLen : Int) - 16 then none
      else
        some ((plainData.drop 2).take apiKeyLen,
          (plainData.drop (4 + apiKeyLen)).take secretKeyLen)
  else none

/-- The identity block cipher: a concrete instance of the abstract `aes`
family in which encryption and decryption are both the identity.  Used to
instantiate the round-trip theorem on concrete data. -/
def aesIdentity : List Nat → (List Nat → List Nat) × (List Nat → List Nat) :=
  fun _ => (fun b => b, fun b => b)

/-! ## Claim C7: the reorder buffer processes in order -/

/-- The reorder-buffer state with next-expected sequence number 1 and an
empty queue: the S6 scenario's starting state. -/
def st0seq : SeqNoHandler Nat :=
  { haveSeqNo := true, startSeqNo := 1, seqNosNum := 0,
    seqNos := List.replicate seqNoElemsNum none }

/-- Invariant of the reorder buffer maintained by `push`: the slot array
has length 30, a next-expected sequence number has been established, the
occupancy extent is within range, an occupied slot `k` holds the element
with sequence number `startSeqNo + k` and lies inside the occupancy
extent, and slot 0 is always free (a contiguous occupied prefix gets
drained at once). -/
structure SeqInv {α : Type} (seqOf : α → Nat) (nh : SeqNoHandler α) : Prop where
  hlen : nh.seqNos.length = seqNoElemsNum
  hhave : nh.haveSeqNo = true
  hnum0 : 0 ≤ nh.seqNosNum
  hnum30 : nh.seqNosNum ≤ (seqNoElemsNum : Int)
  hslot : ∀ k a, nh.seqNos.getD k none = some a →
    seqOf a = nh.startSeqNo + k ∧ (k : Int) < nh.seqNosNum
  hhead : nh.seqNos.getD 0 none = none

/-! ## Claim C8: stale events and the resync reaction -/

/-- A concrete real-time handle state with an acknowledged snapshot and
next-expected sequence number 5 (used against claim C8). -/
def snhC8 : SeqNoHandler (Nat × OrderBookEntryDiff) :=
  { haveSeqNo := true, startSeqNo := 5, seqNosNum := 0,
    seqNos := List.replicate seqNoElemsNum none }

def rtC8 : RtOBState :=
  { initialSeqNo := 10, initial := ⟨[⟨1, 2, 10, 5⟩], []⟩,
    haveInitial := true, snh := snhC8, pendings := [] }

/-- A concrete order-book diff (used against claim C8). -/
def dC8 : OrderBookEntryDiff := ⟨Side.offer, ⟨1, 2, 10, 5⟩⟩

/-! ## Claim C6: applyDiff preserves well-formed books -/

/-- Well-formedness of an order book as stated by the specification:
the bid side strictly descending by rate, the ask side strictly
ascending, both within the side capacities. -/
def obWF (mdBid mdAsk : Nat) (ob : OrderBook) : Prop :=
  ob.Bid.Pairwise (fun a b => b.Rate < a.Rate) ∧ ob.Bid.length ≤ mdBid ∧
  ob.Ask.Pairwise (fun a b => a.Rate < b.Rate) ∧ ob.Ask.length ≤ mdAsk

instance (mdBid mdAsk : Nat) (ob : OrderBook) :
    Decidable (obWF mdBid mdAsk ob) := by
  unfold obWF
  infer_instance

/-- A concrete well-formed order book (used to witness claim C6). -/
def obC6 : OrderBook :=
  ⟨[⟨1, 2, 5, 300⟩, ⟨2, 2, 5, 200⟩], [⟨3, 2, 5, 100⟩, ⟨4, 2, 5, 400⟩]⟩

/-- A concrete diff sequence: an ask insertion, a bid deletion, a bid
insertion (used to witness claim C6). -/
def dsC6 : List OrderBookEntryDiff :=
  [⟨Side.offer, ⟨5, 2, 7, 250⟩⟩, ⟨Side.bid, ⟨1, 2, 5, 0⟩⟩,
    ⟨Side.bid, ⟨6, 2, 9, 350⟩⟩]

/-! ## Theorems -/

/-- Claim C3: on the S1 fixture (positions, market maps and balances of
`TestCalculateTotalBorrow`), `calculateTotalBorrow` returns
2226264000000 with the balances supplied and 2226384000000 with nil
balances. -/
theorem C3_calculateTotalBorrow_fixture :
    calculateTotalBorrow fixtureEngine fixturePositions fixtureBalances =
      2226264000000 ∧
    calculateTotalBorrow fixtureEngine fixturePositions [] =
      2226384000000 := by
  constructor <;> rfl

/-- Claim C1 (code evaluation): on the S2 fixture, `prepareBorrowTask`
returns `TotalBorrow = 173810000000` and `LoanIdsToClose = [102, 100]`
as the claim states, but `Rate = 4118000000` — the rate of the last ask
consumed by the last *committed* credit — not the claimed 4125000000,
because `task.Rate` is only updated when a credit is committed, while
the aborted fill for credit 101 advances the cursor past the
4125000000 level without committing. -/
theorem C1_prepareBorrowTask_S2_eval :
    prepareBorrowTask fixtureConfig fixtureBook fixtureCredits
      (totalCreditsSum fixtureCredits) fixtureNow =
      { TotalBorrow := 173810000000, LoanIdsToClose := [102, 100],
        Rate := 4118000000 } := by
  rfl

/-- Claim C9: supplying balances can only reduce the computed borrow
requirement: `calculateTotalBorrow(poss, bals) ≤
calculateTotalBorrow(poss, nil)` for every engine, position list and
balance list. -/
theorem C9_balances_only_reduce (eng : Engine) (poss : List Position)
    (bals : List Balance) :
    calculateTotalBorrow eng poss bals ≤ calculateTotalBorrow eng poss [] := by
  have key : ∀ b p : Nat,
      (if b < p then p - b else 0) ≤ (if 0 < p then p - 0 else 0) := by
    intro b p
    split <;> split <;> omega
  exact key _ _

/-- Claim C4 (amended): in `prepareBorrowTask`, a credit is classified
as toExpire iff its expiration time is *strictly* before the next
auto-loan tick; a credit whose expiration time equals the next tick is
classified as normal. -/
theorem C4_toExpire_iff_strictly_before (cfg : Config) (now : Int)
    (c : Credit) :
    creditIsNormal cfg now c = false ↔
      creditExpireTime c < nextAutoLoanTime cfg now := by
  unfold creditIsNormal
  rw [decide_eq_false_iff_not, not_le]

/-- Claim C4 counterexample: this credit expires exactly at the next
auto-loan tick, yet `prepareBorrowTask` classifies it as *normal*
(the code uses `!after.After(expire)`, so equality falls on the normal
side), contradicting the claim that expiration at the tick is
classified as toExpire. -/
theorem C4_boundary_counterexample :
    creditExpireTime boundaryCredit =
      nextAutoLoanTime boundaryConfig boundaryNow ∧
    creditIsNormal boundaryConfig boundaryNow boundaryCredit = true := by
  constructor <;> rfl

/-- Claim C5 (code evaluation at the failing input): `PrepareMarkets`
inserts the *currency* ("UST"), not the market name ("BTCUST"), into
`quoteCurrMarkets`; consequently a long BTCUST position matches no map
key and `calculateTotalBorrow` returns 0 instead of the claimed
`amount * basePrice` contribution of 327050000000. -/
theorem C5_prepareMarkets_drops_position :
    prepareMarkets "UST" marketsC5 = ([], ["UST"]) ∧
    calculateTotalBorrow engineC5 [positionC5] [] = 0 ∧
    udec64Mul positionC5.Amount positionC5.BasePrice 8 true =
      327050000000 := by
  refine ⟨rfl, rfl, rfl⟩

theorem creditsAmountSum_cons (c : Credit) (l : List Credit) :
    creditsAmountSum (c :: l) = c.Amount + creditsAmountSum l := by
  simp [creditsAmountSum]

theorem creditsAmountSum_append (l₁ l₂ : List Credit) :
    creditsAmountSum (l₁ ++ l₂) = creditsAmountSum l₁ + creditsAmountSum l₂ := by
  simp [creditsAmountSum]

theorem creditsAmountSum_perm {l₁ l₂ : List Credit} (h : List.Perm l₁ l₂) :
    creditsAmountSum l₁ = creditsAmountSum l₂ :=
  (h.map Credit.Amount).sum_eq

theorem sum_le_of_sublist {l₁ l₂ : List Nat} (h : List.Sublist l₁ l₂) :
    l₁.sum ≤ l₂.sum := by
  induction h with
  | slnil => exact Nat.le_refl 0
  | cons a h ih => simpa using Nat.le_trans ih (by simp)
  | cons₂ a h ih => simpa using ih

theorem creditsAmountSum_le_of_subperm {l₁ l₂ : List Credit}
    (h : List.Subperm l₁ l₂) : creditsAmountSum l₁ ≤ creditsAmountSum l₂ := by
  obtain ⟨l, hp, hs⟩ := h
  calc creditsAmountSum l₁ = creditsAmountSum l := (creditsAmountSum_perm hp).symm
    _ ≤ creditsAmountSum l₂ := sum_le_of_sublist (hs.map Credit.Amount)

/-- Wrapped folding of credit amounts equals the plain sum as long as the
total stays below `2^64`. -/
theorem foldl_w64_amount_eq (l : List Credit) (t : Nat)
    (h : t + creditsAmountSum l < U64) :
    l.foldl (fun a c => w64 (a + c.Amount)) t = t + creditsAmountSum l := by
  induction l generalizing t with
  | nil => simp [creditsAmountSum]
  | cons c l ih =>
      rw [creditsAmountSum_cons] at h
      have h1 : t + c.Amount < U64 := by omega
      have h2 : w64 (t + c.Amount) = t + c.Amount := Nat.mod_eq_of_lt h1
      simp only [List.foldl_cons, h2]
      rw [ih (t + c.Amount) (by omega), creditsAmountSum_cons]
      omega

/-- The joint content of the two disjoint credit classes bounds any pair
of selections from them. -/
theorem amountSum_pair_le {cs₁ cs₂ credits : List Credit}
    {p : Credit → Bool}
    (h₁ : List.Subperm cs₁ (credits.filter p))
    (h₂ : List.Subperm cs₂ (credits.filter (fun c => !p c))) :
    creditsAmountSum cs₁ + creditsAmountSum cs₂ ≤ creditsAmountSum credits := by
  have hperm := List.filter_append_perm p credits
  have hsum := creditsAmountSum_perm hperm
  rw [creditsAmountSum_append] at hsum
  have b₁ := creditsAmountSum_le_of_subperm h₁
  have b₂ := creditsAmountSum_le_of_subperm h₂
  omega

/-- Structural description of the main credit loop: it appends the ids
of some sublist of the iterated credits and accumulates exactly the
amounts of that sublist into `TotalBorrow` (with wrapping addition);
the cursor state changes arbitrarily. -/
theorem normLoop_spec (mrd : Frac) (ask : List OrderBookEntry)
    (revNorm : List Credit) :
    ∀ (l : List Credit) (st : LoopSt), ∃ cs : List Credit, List.Sublist cs l ∧
      (normLoop mrd ask revNorm l st).task.LoanIdsToClose
        = st.task.LoanIdsToClose ++ cs.map Credit.Id ∧
      (normLoop mrd ask revNorm l st).task.TotalBorrow
        = cs.foldl (fun a c => w64 (a + c.Amount)) st.task.TotalBorrow := by
  intro l
  induction l with
  | nil =>
      intro st
      exact ⟨[], List.nil_sublist _, by simp [normLoop], by simp [normLoop]⟩
  | cons c l ih =>
      intro st
      simp only [normLoop]
      split
      · exact ⟨[], List.nil_sublist _, by simp, by simp⟩
      · split
        · exact ⟨[], List.nil_sublist _, by simp, by simp⟩
        · split
          · exact ⟨[], List.nil_sublist _, by simp, by simp⟩
          · split
            · obtain ⟨cs, hsub, hids, htb⟩ := ih _
              refine ⟨c :: cs, hsub.cons₂ c, ?_, ?_⟩
              · rw [hids]; simp
              · rw [htb]; simp
            · exact ⟨[], List.nil_sublist _, by simp, by simp⟩

/-- Structural description of the to-expire loop: ids are untouched and
`TotalBorrow` accumulates the amounts of some prefix sublist. -/
theorem expLoop_spec :
    ∀ (l : List Credit) (p : FillSt × BorrowTask), ∃ cs : List Credit,
      List.Sublist cs l ∧
      (expLoop l p).2.LoanIdsToClose = p.2.LoanIdsToClose ∧
      (expLoop l p).2.TotalBorrow
        = cs.foldl (fun a c => w64 (a + c.Amount)) p.2.TotalBorrow := by
  intro l
  induction l with
  | nil =>
      intro p
      exact ⟨[], List.nil_sublist _, by simp [expLoop], by simp [expLoop]⟩
  | cons c l ih =>
      intro p
      simp only [expLoop]
      split
      · exact ⟨[], List.nil_sublist _, by simp, by simp⟩
      · obtain ⟨cs, hsub, hids, htb⟩ := ih _
        exact ⟨c :: cs, hsub.cons₂ c, by rw [hids], by rw [htb]; rfl⟩

/-- Every wrapped-amount fold stays below `2^64`. -/
theorem foldl_w64_amount_lt (l : List Credit) (t : Nat) (ht : t < U64) :
    l.foldl (fun a c => w64 (a + c.Amount)) t < U64 := by
  induction l generalizing t with
  | nil => simpa using ht
  | cons c l ih =>
      exact ih _ (Nat.mod_lt _ (by norm_num [U64]))

/-- Shape of any `prepareBorrowTask` result: the closed ids are the ids
of a sublist `cs₁` of the sorted normal credits, and `TotalBorrow` is
the wrapped sum of the amounts of `cs₁`, of a sublist `cs₂` of the
to-expire credits, and of a remainder `extra ≤ totalBorrow`. -/
theorem prepareBorrowTask_shape (cfg : Config) (ob : OrderBook)
    (credits : List Credit) (totalBorrow : Nat) (now : Int) :
    ∃ (cs₁ cs₂ : List Credit) (extra : Nat),
      List.Subperm cs₁ (credits.filter (fun c => creditIsNormal cfg now c)) ∧
      List.Subperm cs₂ (credits.filter (fun c => !creditIsNormal cfg now c)) ∧
      extra ≤ totalBorrow ∧
      (prepareBorrowTask cfg ob credits totalBorrow now).LoanIdsToClose
        = cs₁.map Credit.Id ∧
      (prepareBorrowTask cfg ob credits totalBorrow now).TotalBorrow
        = w64 ((cs₁ ++ cs₂).foldl (fun a c => w64 (a + c.Amount)) 0 + extra) := by
  by_cases h1 : ob.Ask.length = 0
  · refine ⟨[], [], 0, List.nil_subperm, List.nil_subperm, Nat.zero_le _,
      ?_, ?_⟩ <;> simp [prepareBorrowTask, h1, w64, U64]
  by_cases h2 : credits.length = 0
  · refine ⟨[], [], 0, List.nil_subperm, List.nil_subperm, Nat.zero_le _,
      ?_, ?_⟩ <;> simp [prepareBorrowTask, h1, h2, w64, U64]
  · simp only [prepareBorrowTask]
    rw [if_neg h1, if_neg h2]
    obtain ⟨cs₁, hsub₁, hids₁, htb₁⟩ :=
      normLoop_spec cfg.MinRateDifference ob.Ask
        (sortCredits (credits.filter (fun c => creditIsNormal cfg now c))).reverse
        (sortCredits (credits.filter (fun c => creditIsNormal cfg now c))).reverse
        { fill := { askRest := ob.Ask, obFilled := 0,
                    obTotalAmount := Frac.zero, taskRate := 0 },
          obSumAmountRate := Frac.zero, csSumAmountRate := Frac.zero,
          csTotalAmount := Frac.zero, task := ⟨0, [], 0⟩ }
    set st₁ := normLoop cfg.MinRateDifference ob.Ask
        (sortCredits (credits.filter (fun c => creditIsNormal cfg now c))).reverse
        (sortCredits (credits.filter (fun c => creditIsNormal cfg now c))).reverse
        { fill := { askRest := ob.Ask, obFilled := 0,
                    obTotalAmount := Frac.zero, taskRate := 0 },
          obSumAmountRate := Frac.zero, csSumAmountRate := Frac.zero,
          csTotalAmount := Frac.zero, task := ⟨0, [], 0⟩ } with hst₁
    obtain ⟨cs₂, hsub₂, hids₂, htb₂⟩ := expLoop_spec
      (credits.filter (fun c => !creditIsNormal cfg now c)) (st₁.fill, st₁.task)
    set st₂ := expLoop (credits.filter (fun c => !creditIsNormal cfg now c))
      (st₁.fill, st₁.task) with hst₂
    have hsub₁p :
        List.Subperm cs₁ (credits.filter (fun c => creditIsNormal cfg now c)) := by
      refine hsub₁.subperm.trans ?_
      refine (List.reverse_perm _).subperm.trans ?_
      exact (List.perm_insertionSort _ _).subperm
    have hfold :
        (cs₁ ++ cs₂).foldl (fun a c => w64 (a + c.Amount)) 0
          = cs₂.foldl (fun a c => w64 (a + c.Amount))
              (cs₁.foldl (fun a c => w64 (a + c.Amount)) 0) :=
      List.foldl_append ..
    have hids₂x : st₂.2.LoanIdsToClose = cs₁.map Credit.Id := by
      rw [hids₂]
      simp only
      rw [hids₁]
      simp
    have htb₂x : st₂.2.TotalBorrow
        = (cs₁ ++ cs₂).foldl (fun a c => w64 (a + c.Amount)) 0 := by
      rw [hfold, htb₂]
      simp only
      rw [htb₁]
    split
    · exact ⟨cs₁, cs₂, totalBorrow - totalCreditsSum credits -
        (obFill st₂.1 (totalBorrow - totalCreditsSum credits) Frac.zero).2.1,
        hsub₁p, hsub₂.subperm, by omega, hids₂x, by rw [htb₂x]⟩
    · refine ⟨cs₁, cs₂, 0, hsub₁p, hsub₂.subperm, Nat.zero_le _, hids₂x, ?_⟩
      rw [htb₂x, hfold, Nat.add_zero]
      exact (Nat.mod_eq_of_lt (foldl_w64_amount_lt _ _
        (foldl_w64_amount_lt _ _ (by norm_num [U64])))).symm

/-- With pairwise-distinct credit ids, the credits whose id appears in
the id list of a selection `cs` are exactly the members of `cs`. -/
theorem filter_ids_perm (credits cs : List Credit)
    (hnd : (credits.map Credit.Id).Nodup)
    (hsub : List.Subperm cs credits) :
    List.Perm
      (credits.filter (fun c => (cs.map Credit.Id).contains c.Id)) cs := by
  have hndc : credits.Nodup := hnd.of_map
  have hndcs : cs.Nodup := by
    obtain ⟨l, hp, hs⟩ := hsub
    exact hp.nodup_iff.mp (hndc.sublist hs)
  have hinj : ∀ a ∈ credits, ∀ b ∈ credits, a.Id = b.Id → a = b := by
    intro a ha b hb hab
    exact List.inj_on_of_nodup_map hnd ha hb hab
  rw [List.perm_iff_count]
  intro a
  by_cases hmem : a ∈ cs
  · have h1 : List.count a cs = 1 := List.count_eq_one_of_mem hndcs hmem
    have hacred : a ∈ credits := hsub.subset hmem
    have hfil : a ∈ credits.filter (fun c => (cs.map Credit.Id).contains c.Id) := by
      rw [List.mem_filter]
      refine ⟨hacred, ?_⟩
      have : a.Id ∈ cs.map Credit.Id := List.mem_map_of_mem Credit.Id hmem
      simpa [List.contains] using this
    have h2 := List.count_eq_one_of_mem (hndc.filter _) hfil
    rw [h1, h2]
  · have h1 : List.count a cs = 0 := List.count_eq_zero.mpr hmem
    have h2 :
        a ∉ credits.filter (fun c => (cs.map Credit.Id).contains c.Id) := by
      intro hfil
      rw [List.mem_filter] at hfil
      have hP : a.Id ∈ cs.map Credit.Id := by
        simpa [List.contains] using hfil.2
      obtain ⟨b, hb, hba⟩ := List.mem_map.mp hP
      exact hmem (hinj a hfil.1 b (hsub.subset hb) hba.symm ▸ hmem
        |> fun _ => (hinj a hfil.1 b (hsub.subset hb) hba.symm) ▸ hb)
    rw [h1, List.count_eq_zero.mpr h2]

/-- Claim C2 (amended): provided the credits have pairwise-distinct ids
and the total of all credit amounts plus the requested `totalBorrow`
fits in 64 bits, every id in `LoanIdsToClose` is the id of a normal
credit of the input list, and `TotalBorrow` dominates the sum of the
amounts of the credits whose ids appear in `LoanIdsToClose`. -/
theorem C2_borrowTask_invariant (cfg : Config) (ob : OrderBook)
    (credits : List Credit) (totalBorrow : Nat) (now : Int)
    (hnd : (credits.map Credit.Id).Nodup)
    (hbound : creditsAmountSum credits + totalBorrow < U64) :
    (∀ i ∈ (prepareBorrowTask cfg ob credits totalBorrow now).LoanIdsToClose,
      ∃ c ∈ credits, creditIsNormal cfg now c = true ∧ c.Id = i) ∧
    creditsAmountSum (credits.filter (fun c =>
        (prepareBorrowTask cfg ob credits totalBorrow
          now).LoanIdsToClose.contains c.Id))
      ≤ (prepareBorrowTask cfg ob credits totalBorrow now).TotalBorrow := by
  obtain ⟨cs₁, cs₂, extra, hs₁, hs₂, hextra, hids, htb⟩ :=
    prepareBorrowTask_shape cfg ob credits totalBorrow now
  constructor
  · intro i hi
    rw [hids] at hi
    obtain ⟨c, hc, rfl⟩ := List.mem_map.mp hi
    have hcf := hs₁.subset hc
    rw [List.mem_filter] at hcf
    exact ⟨c, hcf.1, hcf.2, rfl⟩
  · have hpair := amountSum_pair_le hs₁ hs₂
    have hfoldeq :
        (cs₁ ++ cs₂).foldl (fun a c => w64 (a + c.Amount)) 0
          = creditsAmountSum cs₁ + creditsAmountSum cs₂ := by
      have h := foldl_w64_amount_eq (cs₁ ++ cs₂) 0
        (by rw [creditsAmountSum_append]; omega)
      rw [creditsAmountSum_append] at h
      simpa using h
    have htbeq : (prepareBorrowTask cfg ob credits totalBorrow now).TotalBorrow
        = creditsAmountSum cs₁ + creditsAmountSum cs₂ + extra := by
      rw [htb, hfoldeq]
      exact Nat.mod_eq_of_lt (by omega)
    have hcs₁sub : List.Subperm cs₁ credits :=
      hs₁.trans (List.filter_sublist credits).subperm
    have hperm := filter_ids_perm credits cs₁ hnd hcs₁sub
    rw [hids, creditsAmountSum_perm hperm, htbeq]
    omega

/-- Claim C2 counterexample: with two credits sharing id 7 (amounts 10
and 5), the engine commits only the first one — the book is exhausted —
so `TotalBorrow = 10`, while the amounts of the credits whose id appears
in `LoanIdsToClose = [7]` sum to 15: the claimed inequality fails for
duplicate ids. -/
theorem C2_duplicate_id_counterexample :
    ¬ (creditsAmountSum (dupCredits.filter (fun c =>
        (prepareBorrowTask dupConfig dupBook dupCredits 0
          dupNow).LoanIdsToClose.contains c.Id))
      ≤ (prepareBorrowTask dupConfig dupBook dupCredits 0
          dupNow).TotalBorrow) := by
  decide

/-- Witness for claim C2: the amended invariant instantiated on the S2
test fixture, whose credit ids are distinct and whose amounts are far
below the 64-bit bound. -/
theorem C2_borrowTask_invariant_witness :
    ((fixtureCredits.map Credit.Id).Nodup ∧
      creditsAmountSum fixtureCredits + totalCreditsSum fixtureCredits
        < U64) ∧
    ((∀ i ∈ (prepareBorrowTask fixtureConfig fixtureBook fixtureCredits
          (totalCreditsSum fixtureCredits) fixtureNow).LoanIdsToClose,
        ∃ c ∈ fixtureCredits,
          creditIsNormal fixtureConfig fixtureNow c = true ∧ c.Id = i) ∧
      creditsAmountSum (fixtureCredits.filter (fun c =>
          (prepareBorrowTask fixtureConfig fixtureBook fixtureCredits
            (totalCreditsSum fixtureCredits)
              fixtureNow).LoanIdsToClose.contains c.Id))
        ≤ (prepareBorrowTask fixtureConfig fixtureBook fixtureCredits
            (totalCreditsSum fixtureCredits) fixtureNow).TotalBorrow) :=
  ⟨⟨by decide, by decide⟩,
    C2_borrowTask_invariant fixtureConfig fixtureBook fixtureCredits
      (totalCreditsSum fixtureCredits) fixtureNow (by decide) (by decide)⟩

/-! ## Claim C10: encryption round trip -/

theorem xorBytes_length (a b : List Nat) :
    (xorBytes a b).length = min a.length b.length := by
  simp [xorBytes]

theorem xorBytes_xorBytes (p : List Nat) :
    ∀ b : List Nat, p.length = b.length → xorBytes p (xorBytes p b) = b := by
  induction p with
  | nil => intro b h; cases b with
    | nil => rfl
    | cons y b => simp at h
  | cons x p ih =>
      intro b h
      cases b with
      | nil => simp at h
      | cons y b =>
          have h2 : p.length = b.length := by simpa using h
          simp only [xorBytes, List.zipWith_cons_cons] at *
          show (x ^^^ (x ^^^ y)) :: _ = _
          rw [← Nat.xor_assoc, Nat.xor_self, Nat.zero_xor]
          exact congrArg (List.cons y) (ih b h2)

theorem cbcEncBlocks_blocks_len (E : List Nat → List Nat)
    (hE : ∀ b : List Nat, b.length = 16 → (E b).length = 16) :
    ∀ (bs : List (List Nat)) (prev : List Nat), prev.length = 16 →
      (∀ b ∈ bs, b.length = 16) →
      ∀ c ∈ cbcEncBlocks E prev bs, c.length = 16 := by
  intro bs
  induction bs with
  | nil => intro prev _ _ c hc; simp [cbcEncBlocks] at hc
  | cons b bs ih =>
      intro prev hprev hall c hc
      have hb : b.length = 16 := hall b (List.mem_cons_self ..)
      have hxl : (xorBytes prev b).length = 16 := by
        rw [xorBytes_length, hprev, hb]; simp
      simp only [cbcEncBlocks, List.mem_cons] at hc
      rcases hc with hc | hc
      · rw [hc]; exact hE _ hxl
      · exact ih (E (xorBytes prev b)) (hE _ hxl)
          (fun x hx => hall x (List.mem_cons_of_mem _ hx)) c hc

theorem cbcEncBlocks_length (E : List Nat → List Nat) :
    ∀ (bs : List (List Nat)) (prev : List Nat),
      (cbcEncBlocks E prev bs).length = bs.length := by
  intro bs
  induction bs with
  | nil => intro prev; rfl
  | cons b bs ih => intro prev; simp [cbcEncBlocks, ih]

theorem cbc_roundtrip (E D : List Nat → List Nat)
    (hED : ∀ b, D (E b) = b)
    (hE : ∀ b : List Nat, b.length = 16 → (E b).length = 16) :
    ∀ (bs : List (List Nat)) (prev : List Nat), prev.length = 16 →
      (∀ b ∈ bs, b.length = 16) →
      cbcDecBlocks D prev (cbcEncBlocks E prev bs) = bs := by
  intro bs
  induction bs with
  | nil => intro prev _ _; rfl
  | cons b bs ih =>
      intro prev hprev hall
      have hb : b.length = 16 := hall b (List.mem_cons_self ..)
      have hxl : (xorBytes prev b).length = 16 := by
        rw [xorBytes_length, hprev, hb]; simp
      simp only [cbcEncBlocks, cbcDecBlocks]
      rw [hED, xorBytes_xorBytes prev b (by rw [hprev, hb]),
        ih (E (xorBytes prev b)) (hE _ hxl)
          (fun x hx => hall x (List.mem_cons_of_mem _ hx))]

theorem chunks16Go_eq (fuel : Nat) :
    ∀ l : List Nat, l.length ≤ fuel → chunks16Go fuel l = chunks16 l := by
  induction fuel using Nat.strong_induction_on with
  | _ fuel ih =>
      intro l hl
      cases fuel with
      | zero =>
          cases l with
          | nil => rfl
          | cons x xs => simp at hl
      | succ fuel =>
          cases l with
          | nil => rfl
          | cons x xs =>
              have hxs : xs.length ≤ fuel := by simpa using hl
              have hdrop : ((x :: xs).drop 16).length ≤ xs.length := by
                simp [List.length_drop]
              show (x :: xs).take 16 :: chunks16Go fuel ((x :: xs).drop 16)
                = chunks16 (x :: xs)
              have h1 : chunks16Go fuel ((x :: xs).drop 16)
                  = chunks16 ((x :: xs).drop 16) :=
                ih fuel (Nat.lt_succ_self _) _ (le_trans hdrop hxs)
              have h2 : chunks16Go xs.length ((x :: xs).drop 16)
                  = chunks16 ((x :: xs).drop 16) :=
                ih xs.length (Nat.lt_succ_of_le hxs) _ hdrop
              rw [h1]
              show _ = chunks16Go (xs.length + 1) (x :: xs)
              simp only [chunks16Go]
              rw [h2]

theorem chunks16_mul16 :
    ∀ (n : Nat) (l : List Nat), l.length = 16 * n →
      (∀ b ∈ chunks16 l, b.length = 16) ∧ (chunks16 l).flatten = l := by
  intro n
  induction n with
  | zero =>
      intro l hl
      have h0 : l = [] := List.eq_nil_of_length_eq_zero (by omega)
      subst h0
      constructor
      · intro b hb
        simp [chunks16, chunks16Go] at hb
      · rfl
  | succ n ih =>
      intro l hl
      cases l with
      | nil => simp at hl
      | cons x xs =>
          have hxs : xs.length + 1 = 16 * (n + 1) := by simpa using hl
          have hdl : ((x :: xs).drop 16).length = 16 * n := by
            simp [List.length_drop]; omega
          have h1 : chunks16 (x :: xs)
              = (x :: xs).take 16 :: chunks16 ((x :: xs).drop 16) := by
            show chunks16Go (xs.length + 1) (x :: xs) = _
            simp only [chunks16Go]
            rw [chunks16Go_eq xs.length _ (by simp [List.length_drop])]
          obtain ⟨ha, hf⟩ := ih _ hdl
          rw [h1]
          refine ⟨?_, ?_⟩
          · intro b hb
            rcases List.mem_cons.mp hb with hb | hb
            · rw [hb, List.length_take]
              simp only [List.length_cons]
              omega
            · exact ha b hb
          · rw [List.flatten_cons, hf, List.take_append_drop]
  
theorem chunks16_flatten_blocks :
    ∀ bs : List (List Nat), (∀ b ∈ bs, b.length = 16) →
      chunks16 bs.flatten = bs := by
  intro bs
  induction bs with
  | nil => intro _; rfl
  | cons b bs ih =>
      intro hall
      have hb : b.length = 16 := hall b (List.mem_cons_self ..)
      cases b with
      | nil => simp at hb
      | cons y ys =>
          show chunks16Go ((y :: ys) ++ bs.flatten).length
            ((y :: ys) ++ bs.flatten) = _
          have hlen : ((y :: ys) ++ bs.flatten).length
              = (bs.flatten.length + 15) + 1 := by
            simp at hb ⊢
            omega
          rw [hlen]
          show ((y :: ys) ++ bs.flatten).take 16
              :: chunks16Go (bs.flatten.length + 15)
                (((y :: ys) ++ bs.flatten).drop 16)
            = (y :: ys) :: bs
          rw [List.take_left' hb, List.drop_left' hb,
            chunks16Go_eq _ _ (by omega),
            ih (fun x hx => hall x (List.mem_cons_of_mem _ hx))]

theorem flatten_len16 :
    ∀ bs : List (List Nat), (∀ b ∈ bs, b.length = 16) →
      bs.flatten.length = 16 * bs.length := by
  intro bs
  induction bs with
  | nil => intro _; rfl
  | cons b bs ih =>
      intro hall
      have hb : b.length = 16 := hall b (List.mem_cons_self ..)
      simp only [List.flatten_cons, List.length_append, List.length_cons,
        ih (fun x hx => hall x (List.mem_cons_of_mem _ hx)), hb]
      ring

/-- Claim C10: decrypting with the same password key hash recovers the
original api key and secret key, for any IV, whenever the block cipher
supplied for the derived key is a proper inverse pair preserving the
16-byte block size (as AES does) and the two key lengths fit in 16
bits. -/
theorem C10_auth_roundtrip
    (aes : List Nat → (List Nat → List Nat) × (List Nat → List Nat))
    (passwordHash apiKey secretKey iv : List Nat)
    (hiv : iv.length = 16)
    (hph : passwordHash.length = 64)
    (hinv : ∀ b, (aes (genAESKey passwordHash)).2
      ((aes (genAESKey passwordHash)).1 b) = b)
    (hlen : ∀ b : List Nat, b.length = 16 →
      ((aes (genAESKey passwordHash)).1 b).length = 16)
    (hk : apiKey.length < 65536) (hs : secretKey.length < 65536) :
    decryptExchAuth aes passwordHash
      (encryptExchAuth aes passwordHash apiKey secretKey iv)
      = some (apiKey, secretKey) := by
  set E := (aes (genAESKey passwordHash)).1 with hEdef
  set D := (aes (genAESKey passwordHash)).2 with hDdef
  set la := apiKey.length with hla
  set ls := secretKey.length with hls
  set totLen := 4 + la + ls with htot
  set ciphLen := ((totLen + 15) / 16) * 16 with hciph
  have hcge : totLen ≤ ciphLen := by omega
  set pre : List Nat :=
    [la % 256, la / 256 % 256] ++ apiKey ++
    [ls % 256, ls / 256 % 256] ++ secretKey ++
    List.replicate (ciphLen - totLen) 0 with hpre
  set textPlain : List Nat := pre ++ List.replicate 16 117 with htp
  have hprelen : pre.length = ciphLen := by
    simp [hpre]
    omega
  have htplen : textPlain.length = ciphLen + 16 := by
    simp [htp, hprelen]
  have htpmul : textPlain.length = 16 * (ciphLen / 16 + 1) := by
    rw [htplen]
    omega
  obtain ⟨hchunks16, hflat⟩ := chunks16_mul16 (ciphLen / 16 + 1) textPlain htpmul
  set blocks := chunks16 textPlain with hblocks
  set encBlocks := cbcEncBlocks E iv blocks with henc
  have hencall : ∀ c ∈ encBlocks, c.length = 16 :=
    cbcEncBlocks_blocks_len E hlen blocks iv hiv hchunks16
  have hctlen : encBlocks.flatten.length = textPlain.length := by
    rw [flatten_len16 encBlocks hencall, henc, cbcEncBlocks_length,
      ← flatten_len16 blocks hchunks16, hflat]
  have hedef : encryptExchAuth aes passwordHash apiKey secretKey iv
      = iv ++ encBlocks.flatten := by
    simp only [encryptExchAuth]
  rw [hedef]
  simp only [decryptExchAuth]
  rw [← hDdef, List.take_left' hiv, List.drop_left' hiv,
    chunks16_flatten_blocks encBlocks hencall, henc,
    cbc_roundtrip E D hinv hlen blocks iv hiv hchunks16, hflat, hctlen,
    htplen]
  have hsent : ∀ i : Nat, i < 16 → textPlain.getD (ciphLen + 16 - 16 + i) 0
      = 117 := by
    intro i hi
    rw [htp]
    have h16 : ciphLen + 16 - 16 + i = pre.length + i := by
      rw [hprelen]; omega
    rw [h16, List.getD_eq_getElem?_getD,
      List.getElem?_append_right (Nat.le_add_right _ _),
      Nat.add_sub_cancel_left, List.getElem?_replicate]
    simp [hi]
  have hcond1 : (List.range 16).all
      (fun i => textPlain.getD (ciphLen + 16 - 16 + i) 0 == 117) = true := by
    rw [List.all_eq_true]
    intro i hi
    rw [hsent i (List.mem_range.mp hi)]
    rfl
  rw [hcond1]
  simp only [if_true]
  have hg0 : textPlain.getD 0 0 = la % 256 := by rw [htp, hpre]; rfl
  have hg1 : textPlain.getD 1 0 = la / 256 % 256 := by rw [htp, hpre]; rfl
  rw [hg0, hg1]
  have hlarec : la % 256 + la / 256 % 256 * 256 = la := by omega
  rw [hlarec]
  have hgrp : textPlain = (([la % 256, la / 256 % 256] ++ apiKey)
      ++ ([ls % 256, ls / 256 % 256] ++ (secretKey ++
        (List.replicate (ciphLen - totLen) 0 ++ List.replicate 16 117)))) := by
    rw [htp, hpre]
    simp [List.append_assoc]
  have hplen2 : ([la % 256, la / 256 % 256] ++ apiKey).length = 2 + la := by
    simp [hla]
    omega
  have hidx2 : 2 + la - ([la % 256, la / 256 % 256] ++ apiKey).length = 0 := by
    rw [hplen2]
    omega
  have hidx3 : 3 + la - ([la % 256, la / 256 % 256] ++ apiKey).length = 1 := by
    rw [hplen2]
    omega
  have hg2 : textPlain.getD (2 + la) 0 = ls % 256 := by
    rw [hgrp, List.getD_eq_getElem?_getD,
      List.getElem?_append_right (le_of_eq hplen2), hidx2]
    simp
  have hg3 : textPlain.getD (3 + la) 0 = ls / 256 % 256 := by
    rw [hgrp, List.getD_eq_getElem?_getD,
      List.getElem?_append_right (by rw [hplen2]; omega), hidx3]
    simp
  rw [hg2, hg3]
  have hlsrec : ls % 256 + ls / 256 % 256 * 256 = ls := by omega
  rw [hlsrec]
  have hng1 : ¬ ((la + 2 : Int) > (ciphLen + 16 : Int) - 16) := by
    push_cast
    omega
  have hng2 : ¬ ((la + ls + 4 : Int) > (ciphLen + 16 : Int) - 16) := by
    push_cast
    omega
  rw [if_neg (by push_cast; omega), if_neg (by push_cast; omega)]
  have hgrp2 : textPlain = [la % 256, la / 256 % 256] ++ (apiKey ++
      (([ls % 256, ls / 256 % 256] ++ secretKey ++
        List.replicate (ciphLen - totLen) 0) ++ List.replicate 16 117)) := by
    rw [htp, hpre]
    simp [List.append_assoc]
  have hgrp3 : textPlain = ([la % 256, la / 256 % 256] ++ apiKey ++
      [ls % 256, ls / 256 % 256]) ++ (secretKey ++
      (List.replicate (ciphLen - totLen) 0 ++ List.replicate 16 117)) := by
    rw [htp, hpre]
    simp [List.append_assoc]
  have hlen3 : ([la % 256, la / 256 % 256] ++ apiKey ++
      [ls % 256, ls / 256 % 256]).length = 4 + la := by
    simp [hla]
    omega
  have hdrop2 : (textPlain.drop 2).take la = apiKey := by
    rw [hgrp2,
      List.drop_left' (by rfl : ([la % 256, la / 256 % 256] :
        List Nat).length = 2),
      List.take_left' hla.symm]
  have hdrop4 : (textPlain.drop (4 + la)).take ls = secretKey := by
    rw [hgrp3, List.drop_left' hlen3, List.take_left' hls.symm]
  rw [hdrop2, hdrop4]

/-- Witness for C10: the round trip at the identity cipher with a 64-byte
password hash, apiKey `[1, 2]`, secretKey `[3, 4, 5]` and a concrete IV. -/
theorem C10_auth_roundtrip_witness :
    decryptExchAuth aesIdentity (List.replicate 64 0)
      (encryptExchAuth aesIdentity (List.replicate 64 0) [1, 2] [3, 4, 5]
        (List.replicate 16 7))
      = some ([1, 2], [3, 4, 5]) :=
  C10_auth_roundtrip aesIdentity (List.replicate 64 0) [1, 2] [3, 4, 5]
    (List.replicate 16 7) (by decide) (by decide)
    (fun _ => rfl) (fun _ hb => hb) (by decide) (by decide)

theorem getD_replicate_none {α : Type} (n k : Nat) :
    (List.replicate n (none : Option α)).getD k none = none := by
  rw [List.getD_eq_getElem?_getD, List.getElem?_replicate]
  split <;> rfl

theorem getD_all_none {α : Type} :
    ∀ (l : List (Option α)), l.all (fun o => o.isNone) = true →
      ∀ k, l.getD k none = none := by
  intro l
  induction l with
  | nil => intro _ k; cases k <;> rfl
  | cons o tl ih =>
      intro hall k
      rw [List.all_cons, Bool.and_eq_true] at hall
      cases k with
      | zero =>
          rw [List.getD_cons_zero]
          exact Option.isNone_iff_eq_none.mp hall.1
      | succ k =>
          rw [List.getD_cons_succ]
          exact ih hall.2 k

theorem dropWhile_head_false {α : Type} (p : α → Bool) :
    ∀ (l : List α) (b : α) (tl : List α),
      l.dropWhile p = b :: tl → p b = false := by
  intro l
  induction l with
  | nil => intro b tl h; simp [List.dropWhile] at h
  | cons x xs ih =>
      intro b tl h
      by_cases hpx : p x = true
      · rw [List.dropWhile_cons, if_pos hpx] at h
        exact ih _ _ h
      · rw [List.dropWhile_cons, if_neg hpx] at h
        cases h
        simpa using hpx

theorem takeWhile_isSome_head {α : Type} (l : List (Option α)) (x : α)
    (h : l.getD 0 none = some x) :
    some x ∈ l.takeWhile (fun o => o.isSome) := by
  cases l with
  | nil => simp at h
  | cons o tl =>
      rw [List.getD_cons_zero] at h
      subst h
      rw [List.takeWhile_cons_of_pos rfl]
      exact List.mem_cons_self _ _

theorem reduceOption_take_sorted {α : Type} (seqOf : α → Nat) :
    ∀ (l : List (Option α)) (s t : Nat),
      (∀ j a, l.getD j none = some a → seqOf a = s + j) →
      ((l.take t).reduceOption.map seqOf).Pairwise (· < ·) ∧
        ∀ x ∈ (l.take t).reduceOption, s ≤ seqOf x ∧ seqOf x < s + t := by
  intro l
  induction l with
  | nil =>
      intro s t _
      simp
  | cons o l ih =>
      intro s t h
      cases t with
      | zero => simp
      | succ t =>
          have hshift : ∀ j a, l.getD j none = some a →
              seqOf a = (s + 1) + j := by
            intro j a hj
            have h2 := h (j + 1) a (by rw [List.getD_cons_succ]; exact hj)
            omega
          have ih2 := ih (s + 1) t hshift
          cases o with
          | none =>
              rw [List.take_succ_cons, List.reduceOption_cons_of_none]
              refine ⟨ih2.1, ?_⟩
              intro x hx
              have h3 := ih2.2 x hx
              omega
          | some a =>
              rw [List.take_succ_cons, List.reduceOption_cons_of_some]
              have ha : seqOf a = s := by
                have h0 := h 0 a (by rw [List.getD_cons_zero])
                omega
              constructor
              · rw [List.map_cons, List.pairwise_cons]
                refine ⟨?_, ih2.1⟩
                intro y hy
                obtain ⟨x, hx, hxy⟩ := List.mem_map.mp hy
                have h3 := ih2.2 x hx
                omega
              · intro x hx
                rcases List.mem_cons.mp hx with h4 | h4
                · subst h4; omega
                · have h3 := ih2.2 x h4
                  omega

theorem getD_shift {α : Type} (l : List (Option α)) (i j : Nat)
    (hi : i ≤ l.length) :
    (l.drop i ++ List.replicate i (none : Option α)).getD j none
      = if j < l.length - i then l.getD (i + j) none else none := by
  simp only [List.getD_eq_getElem?_getD]
  rw [List.getElem?_append]
  by_cases hj : j < l.length - i
  · rw [if_pos (by rw [List.length_drop]; omega), List.getElem?_drop,
      if_pos hj]
  · rw [if_neg (by rw [List.length_drop]; omega), List.getElem?_replicate,
      if_neg hj]
    split <;> rfl

theorem i64wrap_small (x : Int) (h1 : -(2 ^ 63) ≤ x) (h2 : x < 2 ^ 63) :
    i64wrap (x % 2 ^ 64) = x := by
  unfold i64wrap
  omega

/-- The queue branch of `push` when the buffer is empty: the element is
stored at its offset, nothing is processed, and the invariant holds for
the resulting state. -/
theorem queue_spec {α : Type} (seqOf : α → Nat) (fuel : Nat)
    (nh : SeqNoHandler α) (nelem : α)
    (hhave : nh.haveSeqNo = true)
    (hlen : nh.seqNos.length = seqNoElemsNum)
    (hnum : nh.seqNosNum = 0)
    (hslot : ∀ k a, nh.seqNos.getD k none = some a →
      seqOf a = nh.startSeqNo + k ∧ (k : Int) < nh.seqNosNum)
    (hgt : nh.startSeqNo < seqOf nelem)
    (hwin : seqOf nelem - nh.startSeqNo < seqNoElemsNum) :
    pushGo seqOf (fuel + 1) nh nelem
      = some ({ nh with
          seqNos := nh.seqNos.set (seqOf nelem - nh.startSeqNo) (some nelem),
          seqNosNum := (seqOf nelem : Int) - nh.startSeqNo + 1 }, [], true)
      ∧ SeqInv seqOf { nh with
          seqNos := nh.seqNos.set (seqOf nelem - nh.startSeqNo) (some nelem),
          seqNosNum := (seqOf nelem : Int) - nh.startSeqNo + 1 } := by
  have hwin' : seqOf nelem - nh.startSeqNo < 30 := hwin
  have hall : ∀ k a, nh.seqNos.getD k none = some a → False := by
    intro k a h
    have h2 := (hslot k a h).2
    rw [hnum] at h2
    omega
  have hk : seqOf nelem - nh.startSeqNo ≠ 0 := by omega
  constructor
  · simp only [pushGo]
    rw [if_pos hnum, if_neg (show ¬ ((!nh.haveSeqNo) = true) by
        rw [hhave]; decide),
      if_neg (show ¬ seqOf nelem < nh.startSeqNo by omega),
      if_neg (show ¬ nh.startSeqNo = seqOf nelem by omega),
      if_pos hwin]
  · refine ⟨?_, hhave, ?_, ?_, ?_, ?_⟩
    · rw [List.length_set]; exact hlen
    · show 0 ≤ (seqOf nelem : Int) - nh.startSeqNo + 1
      omega
    · show (seqOf nelem : Int) - nh.startSeqNo + 1 ≤ (seqNoElemsNum : Int)
      show (seqOf nelem : Int) - nh.startSeqNo + 1 ≤ (30 : Int)
      omega
    · intro k a h
      show seqOf a = nh.startSeqNo + k ∧
        (k : Int) < (seqOf nelem : Int) - nh.startSeqNo + 1
      rw [List.getD_eq_getElem?_getD, List.getElem?_set] at h
      by_cases hk0 : seqOf nelem - nh.startSeqNo = k
      · rw [if_pos hk0, if_pos (by rw [hlen]; exact hk0 ▸ hwin)] at h
        have h2 : some nelem = some a := h
        injection h2 with h3
        subst h3
        subst hk0
        constructor
        · omega
        · omega
      · rw [if_neg hk0, ← List.getD_eq_getElem?_getD] at h
        exact absurd h (fun hx => hall k a hx)
    · show (nh.seqNos.set (seqOf nelem - nh.startSeqNo)
        (some nelem)).getD 0 none = none
      rw [List.getD_eq_getElem?_getD, List.getElem?_set, if_neg hk,
        ← List.getD_eq_getElem?_getD]
      cases hc : nh.seqNos.getD 0 none with
      | none => rfl
      | some a => exact absurd hc (fun hx => hall 0 a hx)

/-- The in-window branch of `push` when the buffer is non-empty: the
element is slotted at its offset, the contiguous occupied prefix is
drained in increasing order, and the invariant is re-established.
Stated for any state whose slots satisfy the positional property; the
occupancy count may be arbitrary, as in the intermediate state of the
no-space self-recursion. -/
theorem drain_spec {α : Type} (seqOf : α → Nat) (fuel : Nat)
    (nh : SeqNoHandler α) (nelem : α)
    (hhave : nh.haveSeqNo = true)
    (hlen : nh.seqNos.length = seqNoElemsNum)
    (hnum30 : nh.seqNosNum ≤ (seqNoElemsNum : Int))
    (hslot : ∀ k a, nh.seqNos.getD k none = some a →
      seqOf a = nh.startSeqNo + k ∧ (k : Int) < nh.seqNosNum)
    (hnumne : ¬ nh.seqNosNum = 0)
    (hge : ¬ seqOf nelem < nh.startSeqNo)
    (hwin : seqOf nelem - nh.startSeqNo < seqNoElemsNum) :
    ∀ r : SeqNoHandler α × List α × Bool,
      pushGo seqOf (fuel + 1) nh nelem = some r →
      SeqInv seqOf r.1 ∧
      nh.startSeqNo ≤ r.1.startSeqNo ∧
      (r.2.1.map seqOf).Pairwise (· < ·) ∧
      (∀ x ∈ r.2.1, nh.startSeqNo ≤ seqOf x ∧ seqOf x < r.1.startSeqNo) ∧
      (seqOf nelem = nh.startSeqNo → nelem ∈ r.2.1) := by
  intro r heq
  have hwin' : seqOf nelem - nh.startSeqNo < 30 := hwin
  have hge' : nh.startSeqNo ≤ seqOf nelem := by omega
  have hnum30' : nh.seqNosNum ≤ (30 : Int) := hnum30
  simp only [pushGo] at heq
  rw [if_neg hnumne, if_neg hge, if_pos hwin] at heq
  by_cases hcol :
      (nh.seqNos.getD (seqOf nelem - nh.startSeqNo) none).isSome = true
  · rw [if_pos hcol] at heq
    simp at heq
  · rw [if_neg hcol] at heq
    set k0 := seqOf nelem - nh.startSeqNo with hk0def
    set slots1 := nh.seqNos.set k0 (some nelem) with hslots1def
    set i := (slots1.takeWhile (fun o => o.isSome)).length with hidef
    set start1 := nh.startSeqNo + i with hstart1def
    set slots2 := slots1.drop i ++ List.replicate i none with hslots2def
    have hlen1 : slots1.length = 30 := by
      rw [hslots1def, List.length_set]
      exact hlen
    have hslot1v : ∀ j a, slots1.getD j none = some a →
        seqOf a = nh.startSeqNo + j := by
      intro j a h
      rw [hslots1def, List.getD_eq_getElem?_getD, List.getElem?_set] at h
      by_cases hjk : k0 = j
      · rw [if_pos hjk, if_pos (by rw [hlen]; exact hjk ▸ hwin)] at h
        have h2 : some nelem = some a := h
        injection h2 with h3
        subst h3
        omega
      · rw [if_neg hjk, ← List.getD_eq_getElem?_getD] at h
        exact (hslot j a h).1
    have hslot1b : ∀ j a, slots1.getD j none = some a → j ≠ k0 →
        (j : Int) < nh.seqNosNum := by
      intro j a h hjk
      rw [hslots1def, List.getD_eq_getElem?_getD, List.getElem?_set,
        if_neg (fun hx => hjk hx.symm), ← List.getD_eq_getElem?_getD] at h
      exact (hslot j a h).2
    have hi30 : i ≤ 30 := by
      rw [hidef]
      have h2 := (List.takeWhile_prefix (l := slots1)
        (fun o : Option α => o.isSome)).length_le
      omega
    have htake : slots1.take i = slots1.takeWhile (fun o => o.isSome) := by
      rw [hidef]
      exact (List.prefix_iff_eq_take.mp (List.takeWhile_prefix _)).symm
    have hdropW : slots1.drop i = slots1.dropWhile (fun o => o.isSome) := by
      have h2 := List.drop_left (slots1.takeWhile (fun o => o.isSome))
        (slots1.dropWhile (fun o => o.isSome))
      rw [List.takeWhile_append_dropWhile] at h2
      rw [hidef]
      exact h2
    have hsorted := reduceOption_take_sorted seqOf slots1 nh.startSeqNo i
      hslot1v
    have hget2 : ∀ j, slots2.getD j none
        = if j < 30 - i then slots1.getD (i + j) none else none := by
      intro j
      rw [hslots2def]
      have h2 := getD_shift slots1 i j (by omega)
      rw [hlen1] at h2
      exact h2
    have hlen2 : slots2.length = seqNoElemsNum := by
      rw [hslots2def, List.length_append, List.length_drop,
        List.length_replicate, hlen1]
      show 30 - i + i = 30
      omega
    have himm : seqOf nelem = nh.startSeqNo →
        nelem ∈ (slots1.take i).reduceOption := by
      intro h0
      have hk00 : k0 = 0 := by omega
      have hc : slots1.getD 0 none = some nelem := by
        rw [hslots1def, hk00, List.getD_eq_getElem?_getD, List.getElem?_set,
          if_pos rfl, if_pos (by rw [hlen]; decide)]
        rfl
      rw [htake]
      exact List.reduceOption_mem_iff.mpr (takeWhile_isSome_head slots1 nelem hc)
    by_cases hall : slots2.all (fun o => o.isNone) = true
    · rw [if_pos hall] at heq
      injection heq with heq2
      subst heq2
      dsimp only
      refine ⟨⟨hlen2, hhave, le_refl 0,
        by show (0 : Int) ≤ ↑seqNoElemsNum; decide, ?_,
        getD_all_none slots2 hall 0⟩, ?_, hsorted.1, ?_, himm⟩
      · intro k a h
        rw [getD_all_none slots2 hall k] at h
        exact Option.noConfusion h
      · show nh.startSeqNo ≤ start1
        omega
      · intro x hx
        have h2 := hsorted.2 x hx
        refine ⟨h2.1, ?_⟩
        show seqOf x < start1
        omega
    · rw [if_neg hall] at heq
      have hv : i64wrap (((seqOf nelem : Int) - ↑start1 + 1) % 2 ^ 64)
          = (seqOf nelem : Int) - ↑start1 + 1 :=
        i64wrap_small _ (by omega) (by omega)
      rw [hv] at heq
      have hall' : slots2.all (fun o => o.isNone) = false := by
        revert hall
        cases slots2.all (fun o => o.isNone) <;> simp
      have hex : ∃ j a, slots2.getD j none = some a := by
        obtain ⟨o, ho, hno⟩ := List.all_eq_false.mp hall'
        cases o with
        | none => simp at hno
        | some a =>
            obtain ⟨j, hjlt, hjv⟩ := List.mem_iff_getElem.mp ho
            refine ⟨j, a, ?_⟩
            rw [List.getD_eq_getElem?_getD, List.getElem?_eq_getElem hjlt,
              hjv]
            rfl
      have hi_lt30 : i < 30 := by
        rcases hex with ⟨j, a, hj⟩
        rw [hget2 j] at hj
        by_contra hcon
        rw [if_neg (by omega)] at hj
        exact Option.noConfusion hj
      have hgetIdx : slots1.getD i none
          = (slots1.dropWhile (fun o => o.isSome)).getD 0 none := by
        rw [← hdropW, List.getD_eq_getElem?_getD, List.getD_eq_getElem?_getD,
          List.getElem?_drop]
        simp
      have hhead2 : slots2.getD 0 none = none := by
        rw [hget2 0, if_pos (by omega)]
        rw [show i + 0 = i from rfl, hgetIdx]
        cases hdw : slots1.dropWhile (fun o => o.isSome) with
        | nil => rfl
        | cons bb tl =>
            have hb := dropWhile_head_false (fun o : Option α => o.isSome)
              slots1 bb tl hdw
            cases bb with
            | none => rfl
            | some y => simp at hb
      have hslot2 : ∀ j a, slots2.getD j none = some a →
          seqOf a = start1 + j ∧
          ((j : Int) < nh.seqNosNum - ↑i ∨
            (j : Int) + 1 ≤ (seqOf nelem : Int) - ↑start1 + 1) := by
        intro j a h
        rw [hget2 j] at h
        by_cases hjlt : j < 30 - i
        · rw [if_pos hjlt] at h
          have hv1 := hslot1v (i + j) a h
          refine ⟨by omega, ?_⟩
          by_cases hjk : i + j = k0
          · right
            omega
          · left
            have hb := hslot1b (i + j) a h hjk
            omega
        · rw [if_neg hjlt] at h
          exact Option.noConfusion h
      have hposkey : (0 : Int) < nh.seqNosNum - ↑i ∨
          1 ≤ (seqOf nelem : Int) - ↑start1 + 1 := by
        obtain ⟨j, a, hj⟩ := hex
        rcases (hslot2 j a hj).2 with h1 | h1
        · left; omega
        · right; omega
      by_cases hcond : nh.seqNosNum - ↑i < (seqOf nelem : Int) - ↑start1 + 1
      · rw [if_pos hcond] at heq
        injection heq with heq2
        subst heq2
        dsimp only
        refine ⟨⟨hlen2, hhave,
          by show (0 : Int) ≤ (seqOf nelem : Int) - ↑start1 + 1; omega,
          by show (seqOf nelem : Int) - ↑start1 + 1 ≤ (30 : Int); omega,
          ?_, hhead2⟩, ?_, hsorted.1, ?_, himm⟩
        · intro k a h
          obtain ⟨h1, h2⟩ := hslot2 k a h
          refine ⟨h1, ?_⟩
          show (k : Int) < (seqOf nelem : Int) - ↑start1 + 1
          omega
        · show nh.startSeqNo ≤ start1
          omega
        · intro x hx
          have h2 := hsorted.2 x hx
          refine ⟨h2.1, ?_⟩
          show seqOf x < start1
          omega
      · rw [if_neg hcond] at heq
        injection heq with heq2
        subst heq2
        dsimp only
        refine ⟨⟨hlen2, hhave,
          by show (0 : Int) ≤ nh.seqNosNum - ↑i; omega,
          by show nh.seqNosNum - ↑i ≤ (30 : Int); omega,
          ?_, hhead2⟩, ?_, hsorted.1, ?_, himm⟩
        · intro k a h
          obtain ⟨h1, h2⟩ := hslot2 k a h
          refine ⟨h1, ?_⟩
          show (k : Int) < nh.seqNosNum - ↑i
          omega
        · show nh.startSeqNo ≤ start1
          omega
        · intro x hx
          have h2 := hsorted.2 x hx
          refine ⟨h2.1, ?_⟩
          show seqOf x < start1
          omega

/-- One-level unfolding of the no-space branch of `push` for a
non-empty buffer: the first up-to-30 pending slots are flushed and the
push is retried on the shifted state. -/
theorem pushGo_nospace {α : Type} (seqOf : α → Nat) (fuel : Nat)
    (nh : SeqNoHandler α) (nelem : α)
    (hnumne : ¬ nh.seqNosNum = 0)
    (hge : ¬ seqOf nelem < nh.startSeqNo)
    (hwin : ¬ seqOf nelem - nh.startSeqNo < seqNoElemsNum) :
    pushGo seqOf (fuel + 1) nh nelem =
      (let toProcess : Int :=
        min ((seqOf nelem : Int) - nh.startSeqNo - (seqNoElemsNum - 1))
          (seqNoElemsNum : Int)
      let t := toProcess.toNat
      match pushGo seqOf fuel
        { nh with
          startSeqNo :=
            if toProcess = (seqNoElemsNum : Int) then
              seqOf nelem - (seqNoElemsNum - 1)
            else nh.startSeqNo + t,
          seqNos := nh.seqNos.drop t ++ List.replicate t none,
          seqNosNum := nh.seqNosNum - toProcess } nelem with
      | none => none
      | some (nh2, out2, _) =>
          some (nh2, (nh.seqNos.take t).reduceOption ++ out2, false)) := by
  simp only [pushGo]
  rw [if_neg hnumne, if_neg hge, if_neg hwin]

/-- `seqNoHandler.push` preserves the invariant; the elements it
processes carry strictly increasing sequence numbers lying in the
half-open window between the old and the new next-expected number; an
element carrying exactly the next-expected number is processed during
its own push. -/
theorem seqPush_spec {α : Type} (seqOf : α → Nat) (nh : SeqNoHandler α)
    (nelem : α) (hinv : SeqInv seqOf nh) :
    ∀ r : SeqNoHandler α × List α × Bool,
      seqPush seqOf nh nelem = some r →
      SeqInv seqOf r.1 ∧
      nh.startSeqNo ≤ r.1.startSeqNo ∧
      (r.2.1.map seqOf).Pairwise (· < ·) ∧
      (∀ x ∈ r.2.1, nh.startSeqNo ≤ seqOf x ∧ seqOf x < r.1.startSeqNo) ∧
      (seqOf nelem = nh.startSeqNo → nelem ∈ r.2.1) := by
  obtain ⟨hlen, hhave, hnum0, hnum30, hslot, hhead⟩ := hinv
  intro r heq
  rw [show seqPush seqOf nh nelem = pushGo seqOf (1 + 1) nh nelem from rfl]
    at heq
  have h30 : seqNoElemsNum = 30 := rfl
  by_cases hnum : nh.seqNosNum = 0
  · by_cases hlt : seqOf nelem < nh.startSeqNo
    · simp only [pushGo] at heq
      rw [if_pos hnum, if_neg (show ¬ ((!nh.haveSeqNo) = true) by
          rw [hhave]; decide), if_pos hlt] at heq
      injection heq with heq2
      subst heq2
      dsimp only
      exact ⟨⟨hlen, hhave, hnum0, hnum30, hslot, hhead⟩, le_refl _,
        by simp, by simp, fun h0 => absurd h0 (by omega)⟩
    · by_cases heqn : nh.startSeqNo = seqOf nelem
      · simp only [pushGo] at heq
        rw [if_pos hnum, if_neg (show ¬ ((!nh.haveSeqNo) = true) by
            rw [hhave]; decide), if_neg hlt, if_pos heqn] at heq
        injection heq with heq2
        subst heq2
        dsimp only
        refine ⟨⟨hlen, hhave, hnum0, hnum30, ?_, hhead⟩, by omega,
          by simp, ?_, ?_⟩
        · intro k a h
          have h2 := hslot k a h
          rw [hnum] at h2
          exact absurd h2.2 (by omega)
        · intro x hx
          rw [List.mem_singleton] at hx
          subst hx
          refine ⟨by omega, ?_⟩
          show seqOf x < seqOf x + 1
          omega
        · intro _
          exact List.mem_singleton_self _
      · by_cases hwin : seqOf nelem - nh.startSeqNo < seqNoElemsNum
        · have hq := queue_spec seqOf 1 nh nelem hhave hlen hnum hslot
            (by omega) hwin
          have hcomb := hq.1.symm.trans heq
          injection hcomb with heq2
          subst heq2
          dsimp only
          exact ⟨hq.2, le_refl _, by simp, by simp,
            fun h0 => absurd h0 (by omega)⟩
        · simp only [pushGo] at heq
          rw [if_pos hnum, if_neg (show ¬ ((!nh.haveSeqNo) = true) by
              rw [hhave]; decide), if_neg hlt, if_neg heqn, if_neg hwin]
            at heq
          injection heq with heq2
          subst heq2
          dsimp only
          have hlenB : (nh.seqNos.set (seqNoElemsNum - 1)
              (some nelem)).length = seqNoElemsNum := by
            rw [List.length_set]; exact hlen
          have hnum0B : (0 : Int) ≤ (seqNoElemsNum : Int) := by decide
          refine ⟨⟨hlenB, hhave, hnum0B, le_refl _, ?_, ?_⟩, ?_,
            by simp, by simp, fun h0 => absurd h0 (by omega)⟩
          · intro k a h
            rw [List.getD_eq_getElem?_getD, List.getElem?_set] at h
            by_cases hk29 : seqNoElemsNum - 1 = k
            · rw [if_pos hk29, if_pos (by rw [hlen]; decide)] at h
              have h2 : some nelem = some a := h
              injection h2 with h3
              rw [← h3]
              constructor
              · show seqOf nelem = seqOf nelem - (seqNoElemsNum - 1) + k
                omega
              · show (k : Int) < (seqNoElemsNum : Int)
                omega
            · rw [if_neg hk29, ← List.getD_eq_getElem?_getD] at h
              have h2 := (hslot k a h).2
              rw [hnum] at h2
              exact absurd h2 (by omega)
          · show (nh.seqNos.set (seqNoElemsNum - 1) (some nelem)).getD 0 none
              = none
            rw [List.getD_eq_getElem?_getD, List.getElem?_set,
              if_neg (by decide : ¬ seqNoElemsNum - 1 = 0),
              ← List.getD_eq_getElem?_getD]
            exact hhead
          · show nh.startSeqNo ≤ seqOf nelem - (seqNoElemsNum - 1)
            omega
  · by_cases hlt : seqOf nelem < nh.startSeqNo
    · simp only [pushGo] at heq
      rw [if_neg hnum, if_pos hlt] at heq
      injection heq with heq2
      subst heq2
      dsimp only
      exact ⟨⟨hlen, hhave, hnum0, hnum30, hslot, hhead⟩, le_refl _,
        by simp, by simp, fun h0 => absurd h0 (by omega)⟩
    · by_cases hwin : seqOf nelem - nh.startSeqNo < seqNoElemsNum
      · exact drain_spec seqOf 1 nh nelem hhave hlen hnum30 hslot hnum hlt
          hwin r heq
      · rw [pushGo_nospace seqOf 1 nh nelem hnum hlt hwin] at heq
        dsimp only at heq
        set tP := min ((seqOf nelem : Int) - ↑nh.startSeqNo
          - (↑seqNoElemsNum - 1)) (seqNoElemsNum : Int) with htPdef
        set t := tP.toNat with htdef
        set start1 := if tP = (seqNoElemsNum : Int) then
          seqOf nelem - (seqNoElemsNum - 1) else nh.startSeqNo + t
          with hstart1def
        set slots2 := nh.seqNos.drop t ++ List.replicate t none
          with hslots2def
        have hge30 : nh.startSeqNo + 30 ≤ seqOf nelem := by omega
        have hchoice := min_choice ((seqOf nelem : Int) - ↑nh.startSeqNo
          - (↑seqNoElemsNum - 1)) (seqNoElemsNum : Int)
        rw [← htPdef] at hchoice
        have htp1 : 1 ≤ tP := by
          rcases hchoice with hc | hc <;> omega
        have htp30 : tP ≤ 30 := by
          rcases hchoice with hc | hc <;> omega
        have htcast : (t : Int) = tP := by
          rw [htdef]
          exact Int.toNat_of_nonneg (by omega)
        have ht1 : 1 ≤ t := by omega
        have ht30 : t ≤ 30 := by omega
        have hn29 : seqOf nelem = start1 + 29 := by
          rw [hstart1def]
          by_cases hif : tP = (seqNoElemsNum : Int)
          · rw [if_pos hif]
            omega
          · rw [if_neg hif]
            have hc2 : tP = (seqOf nelem : Int) - ↑nh.startSeqNo
                - (↑seqNoElemsNum - 1) := by
              rcases hchoice with hc | hc
              · exact hc
              · exact absurd hc hif
            omega
        have hstge : nh.startSeqNo + t ≤ start1 := by
          rw [hstart1def]
          by_cases hif : tP = (seqNoElemsNum : Int)
          · rw [if_pos hif]
            omega
          · rw [if_neg hif]
        have hsorted1 := reduceOption_take_sorted seqOf nh.seqNos
          nh.startSeqNo t (fun j a h => (hslot j a h).1)
        have hlen2 : slots2.length = seqNoElemsNum := by
          rw [hslots2def, List.length_append, List.length_drop,
            List.length_replicate, hlen]
          omega
        have hget2 : ∀ j, slots2.getD j none
            = if j < 30 - t then nh.seqNos.getD (t + j) none else none := by
          intro j
          rw [hslots2def]
          have h2 := getD_shift nh.seqNos t j (by omega)
          rw [hlen, h30] at h2
          exact h2
        have hslot1 : ∀ j a, slots2.getD j none = some a →
            seqOf a = start1 + j ∧ (j : Int) < nh.seqNosNum - tP := by
          intro j a h
          rw [hget2 j] at h
          by_cases hjlt : j < 30 - t
          · rw [if_pos hjlt] at h
            have h2 := hslot (t + j) a h
            constructor
            · omega
            · omega
          · rw [if_neg hjlt] at h
            exact Option.noConfusion h
        cases hrec : pushGo seqOf 1
            { nh with
              startSeqNo := start1, seqNos := slots2,
              seqNosNum := nh.seqNosNum - tP } nelem with
        | none =>
            rw [hrec] at heq
            simp at heq
        | some p =>
            obtain ⟨nh2, out2, b2⟩ := p
            rw [hrec] at heq
            injection heq with heq2
            subst heq2
            dsimp only
            by_cases hz : nh.seqNosNum - tP = 0
            · have hq := queue_spec seqOf 0
                { nh with
                  startSeqNo := start1, seqNos := slots2,
                  seqNosNum := nh.seqNosNum - tP } nelem hhave hlen2 hz
                (fun k a h => hslot1 k a h)
                (by show start1 < seqOf nelem; omega)
                (by show seqOf nelem - start1 < seqNoElemsNum; omega)
              have hcomb := hq.1.symm.trans hrec
              injection hcomb with hc2
              injection hc2 with hc2a hc2b
              injection hc2b with hc2c hc2d
              subst hc2a
              subst hc2c
              refine ⟨hq.2, ?_, ?_, ?_, fun h0 => absurd h0 (by omega)⟩
              · show nh.startSeqNo ≤ start1
                omega
              · rw [List.append_nil]
                exact hsorted1.1
              · intro x hx
                rw [List.append_nil] at hx
                have h2 := hsorted1.2 x hx
                refine ⟨h2.1, ?_⟩
                show seqOf x < start1
                omega
            · have hd := drain_spec seqOf 0
                { nh with
                  startSeqNo := start1, seqNos := slots2,
                  seqNosNum := nh.seqNosNum - tP } nelem hhave hlen2
                (by show nh.seqNosNum - tP ≤ (30 : Int); omega)
                (fun k a h => hslot1 k a h) hz
                (by show ¬ seqOf nelem < start1; omega)
                (by show seqOf nelem - start1 < seqNoElemsNum; omega)
                (nh2, out2, b2) hrec
              obtain ⟨hinv2, hmono2, hpw2, hbd2, _⟩ := hd
              have hm2 : start1 ≤ nh2.startSeqNo := hmono2
              refine ⟨hinv2, ?_, ?_, ?_, fun h0 => absurd h0 (by omega)⟩
              · show nh.startSeqNo ≤ nh2.startSeqNo
                omega
              · rw [List.map_append, List.pairwise_append]
                refine ⟨hsorted1.1, hpw2, ?_⟩
                intro x hx y hy
                obtain ⟨x1, hx1, hx2⟩ := List.mem_map.mp hx
                obtain ⟨y1, hy1, hy2⟩ := List.mem_map.mp hy
                have h2 := (hsorted1.2 x1 hx1).2
                have h3 := (hbd2 y1 hy1).1
                have h3' : start1 ≤ seqOf y1 := h3
                omega
              · intro x hx
                rcases List.mem_append.mp hx with h4 | h4
                · have h2 := hsorted1.2 x h4
                  refine ⟨h2.1, ?_⟩
                  have h5 := hm2
                  omega
                · have h2 := hbd2 x h4
                  have h2a : start1 ≤ seqOf x := h2.1
                  have h2b : seqOf x < nh2.startSeqNo := h2.2
                  exact ⟨by omega, h2b⟩

/-- Folding a whole event sequence through `push` from an invariant
state yields a strictly increasing stream of processed sequence
numbers, all below the final next-expected number. -/
theorem seqRun_spec {α : Type} (seqOf : α → Nat) :
    ∀ (events : List α) (nh : SeqNoHandler α), SeqInv seqOf nh →
      SeqInv seqOf (seqRun seqOf nh events).1 ∧
      nh.startSeqNo ≤ (seqRun seqOf nh events).1.startSeqNo ∧
      ((seqRun seqOf nh events).2.map seqOf).Pairwise (· < ·) ∧
      ∀ x ∈ (seqRun seqOf nh events).2,
        nh.startSeqNo ≤ seqOf x ∧
          seqOf x < (seqRun seqOf nh events).1.startSeqNo := by
  intro events
  induction events with
  | nil =>
      intro nh hinv
      exact ⟨hinv, le_refl _, by simp [seqRun], by simp [seqRun]⟩
  | cons e es ih =>
      intro nh hinv
      simp only [seqRun]
      cases hps : seqPush seqOf nh e with
      | none => exact ⟨hinv, le_refl _, by simp, by simp⟩
      | some p =>
          obtain ⟨nh1, out, b1⟩ := p
          obtain ⟨hinv1, hmono1, hpw1, hbd1, _⟩ :=
            seqPush_spec seqOf nh e hinv (nh1, out, b1) hps
          have hinv1' : SeqInv seqOf nh1 := hinv1
          have hmono1' : nh.startSeqNo ≤ nh1.startSeqNo := hmono1
          have hpw1' : (out.map seqOf).Pairwise (· < ·) := hpw1
          have hbd1' : ∀ x ∈ out,
              nh.startSeqNo ≤ seqOf x ∧ seqOf x < nh1.startSeqNo := hbd1
          obtain ⟨hinv2, hmono2, hpw2, hbd2⟩ := ih nh1 hinv1'
          dsimp only
          refine ⟨hinv2, ?_, ?_, ?_⟩
          · exact le_trans hmono1' hmono2
          · rw [List.map_append, List.pairwise_append]
            refine ⟨hpw1', hpw2, ?_⟩
            intro x hx y hy
            obtain ⟨x1, hx1, hx2⟩ := List.mem_map.mp hx
            obtain ⟨y1, hy1, hy2⟩ := List.mem_map.mp hy
            have h2 := (hbd1' x1 hx1).2
            have h3 := (hbd2 y1 hy1).1
            omega
          · intro x hx
            rcases List.mem_append.mp hx with h4 | h4
            · have h2 := hbd1' x h4
              exact ⟨h2.1, by have := hmono2; omega⟩
            · have h2 := hbd2 x h4
              exact ⟨by have := hmono1'; omega, h2.2⟩

/-- C7: for every event sequence fed to the seqNo reorder buffer from a
state satisfying the buffer invariant, the processed stream carries each
sequence number at most once and in increasing (hence nondecreasing)
order; an event whose sequence number equals the next-expected value is
processed during its own push; and the S6 scenario (next-expected 1,
pushes 3, 2, 5, 4, 1) processes exactly 1, 2, 3, 4, 5 in this order. -/
theorem C7_reorder_buffer :
    (∀ (α : Type) (seqOf : α → Nat) (nh : SeqNoHandler α)
        (events : List α), SeqInv seqOf nh →
        ((seqRun seqOf nh events).2.map seqOf).Nodup ∧
        ((seqRun seqOf nh events).2.map seqOf).Pairwise (· ≤ ·)) ∧
    (∀ (α : Type) (seqOf : α → Nat) (nh : SeqNoHandler α) (e : α)
        (r : SeqNoHandler α × List α × Bool),
        SeqInv seqOf nh → seqPush seqOf nh e = some r →
        seqOf e = nh.startSeqNo → e ∈ r.2.1) ∧
    (seqRun (fun n => n) st0seq [3, 2, 5, 4, 1]).2 = [1, 2, 3, 4, 5] := by
  refine ⟨?_, ?_, ?_⟩
  · intro α seqOf nh events hinv
    have h := (seqRun_spec seqOf events nh hinv).2.2.1
    exact ⟨h.imp (fun hab => Nat.ne_of_lt hab),
      h.imp (fun hab => Nat.le_of_lt hab)⟩
  · intro α seqOf nh e r hinv hps he
    exact (seqPush_spec seqOf nh e hinv r hps).2.2.2.2 he
  · rfl

/-- Witness for C7: the theorem applied to the S6 scenario itself, and
to a push of the next-expected sequence number 1 into the fresh state,
whose event is processed immediately. -/
theorem C7_reorder_buffer_witness :
    (((seqRun (fun n : Nat => n) st0seq [3, 2, 5, 4, 1]).2.map
        (fun n => n)).Nodup ∧
      ((seqRun (fun n : Nat => n) st0seq [3, 2, 5, 4, 1]).2.map
        (fun n => n)).Pairwise (· ≤ ·)) ∧
    (1 : Nat) ∈ (({ st0seq with startSeqNo := 2 }, [1], true) :
      SeqNoHandler Nat × List Nat × Bool).2.1 := by
  have hinv0 : SeqInv (fun n : Nat => n) st0seq := by
    refine ⟨rfl, rfl, le_refl 0, by decide, ?_, ?_⟩
    · intro k a h
      rw [show st0seq.seqNos = List.replicate seqNoElemsNum none from rfl,
        getD_replicate_none] at h
      exact Option.noConfusion h
    · exact getD_replicate_none seqNoElemsNum 0
  constructor
  · exact C7_reorder_buffer.1 Nat (fun n => n) st0seq [3, 2, 5, 4, 1] hinv0
  · exact C7_reorder_buffer.2.1 Nat (fun n => n) st0seq 1
      ({ st0seq with startSeqNo := 2 }, [1], true) hinv0 rfl rfl

/-- C8 (amended): pushing an event with a sequence number strictly below
the next-expected one drops the event without processing it and leaves
the handler state unchanged, but `push` reports `false` — the very value
that signals missed sequence numbers — so `pushDiffInt` clears the
handler, discards the initial snapshot, and reports that a new initial
book is required. -/
theorem C8_stale_push (md : Nat) (st : RtOBState) (seqNo : Nat)
    (diff : OrderBookEntryDiff)
    (hhave : st.snh.haveSeqNo = true)
    (hlt : seqNo < st.snh.startSeqNo) :
    seqPush (fun p => p.1) st.snh (seqNo, diff) = some (st.snh, [], false) ∧
    pushDiffInt md st seqNo diff
      = some ((0, [], false, false),
          { st with
            snh := seqClear st.snh, pendings := st.pendings,
            initial := ⟨[], []⟩, haveInitial := false }) := by
  have hp : seqPush (fun p : Nat × OrderBookEntryDiff => p.1) st.snh
      (seqNo, diff) = some (st.snh, [], false) := by
    rw [show seqPush (fun p : Nat × OrderBookEntryDiff => p.1) st.snh
        (seqNo, diff)
      = pushGo (fun p : Nat × OrderBookEntryDiff => p.1) (1 + 1) st.snh
        (seqNo, diff) from rfl]
    by_cases hnum : st.snh.seqNosNum = 0
    · simp only [pushGo]
      rw [if_pos hnum, if_neg (show ¬ ((!st.snh.haveSeqNo) = true) by
          rw [hhave]; decide), if_pos hlt]
    · simp only [pushGo]
      rw [if_neg hnum, if_pos hlt]
  refine ⟨hp, ?_⟩
  simp only [pushDiffInt, hp, tryProcessInt]
  simp [List.append_nil]

/-- Witness for C8 at the concrete handle state `rtC8` and diff `dC8`:
a stale push of sequence number 3 against next-expected 5. -/
theorem C8_stale_push_witness :
    (seqPush (fun p => p.1) rtC8.snh (3, dC8) = some (rtC8.snh, [], false) ∧
      pushDiffInt 25 rtC8 3 dC8
        = some ((0, [], false, false),
            { rtC8 with
              snh := seqClear rtC8.snh, pendings := rtC8.pendings,
              initial := ⟨[], []⟩, haveInitial := false })) :=
  C8_stale_push 25 rtC8 3 dC8 rfl (by decide)

/-- Counterexample for C8: the same stale push flips `haveInitial` from
`true` to `false` and clears the reorder handler, i.e. the caller does
drop its state and demand a fresh snapshot, contradicting the claim
that no resync is triggered. -/
theorem C8_stale_push_counterexample :
    rtC8.haveInitial = true ∧
    (pushDiffInt 25 rtC8 3 dC8).map
        (fun r => ((r.2.haveInitial, r.2.snh.haveSeqNo), r.1.2.2.2))
      = some ((false, false), false) := by
  constructor
  · rfl
  · rfl

/-- The binary search of `applyDiff` returns the length of the true
prefix of its probe, provided the probe is a prefix predicate. -/
theorem bsLoop_eq (p : Nat → Bool) (c n : Nat) (hc : c ≤ n)
    (hp : ∀ k, k < n → (p k = true ↔ k < c)) :
    ∀ (fuel i j : Nat), i ≤ c → c ≤ j → j ≤ n → j - i ≤ fuel →
      bsLoop p fuel i j = c := by
  intro fuel
  induction fuel with
  | zero =>
      intro i j hic hcj hjn hfuel
      simp only [bsLoop]
      omega
  | succ fuel ih =>
      intro i j hic hcj hjn hfuel
      simp only [bsLoop]
      by_cases hij : i < j
      · rw [if_pos hij]
        by_cases hph : p ((i + j) / 2) = true
        · rw [if_pos hph]
          have h2 := (hp ((i + j) / 2) (by omega)).mp hph
          exact ih ((i + j) / 2 + 1) j (by omega) hcj hjn (by omega)
        · rw [if_neg hph]
          have h2 : ¬ ((i + j) / 2 < c) := fun hcon =>
            hph ((hp ((i + j) / 2) (by omega)).mpr hcon)
          exact ih i ((i + j) / 2) hic (by omega) (by omega) (by omega)
      · rw [if_neg hij]
        omega

/-- Extract an index witness from membership in `(l.take m).drop i`. -/
theorem mem_drop_take {α : Type} [Inhabited α] (l : List α) (i m : Nat)
    (d : α) (x : α) (hx : x ∈ (l.take m).drop i) :
    ∃ k, i ≤ k ∧ k < m ∧ k < l.length ∧ l.getD k d = x := by
  obtain ⟨j, hj, hjv⟩ := List.mem_iff_getElem.mp hx
  have hj2 := hj
  rw [List.length_drop, List.length_take] at hj2
  refine ⟨i + j, by omega, by omega, by omega, ?_⟩
  rw [List.getElem_drop] at hjv
  rw [List.getElem_take] at hjv
  rw [List.getD_eq_getElem _ _ (by omega)]
  exact hjv

theorem obeCmp_lt (o e : OrderBookEntry) :
    decide (obeCmp o e < 0) = decide (-(e.Rate : Int) < -(o.Rate : Int)) := by
  rw [decide_eq_decide]
  unfold obeCmp
  split_ifs with h1 h2 <;> omega

theorem obeCmp_gt (o e : OrderBookEntry) :
    decide (obeCmp o e > 0) = decide ((e.Rate : Int) < (o.Rate : Int)) := by
  rw [decide_eq_decide]
  unfold obeCmp
  split_ifs with h1 h2 <;> omega

theorem obeCmp_zero (o e : OrderBookEntry) :
    obeCmp o e = 0 ↔ ((o.Rate : Int) = (e.Rate : Int)) := by
  unfold obeCmp
  split_ifs with h1 h2 <;> constructor <;> intro h <;>
    first
    | omega
    | simp at h

theorem obeCmp_zero_neg (o e : OrderBookEntry) :
    obeCmp o e = 0 ↔ (-(o.Rate : Int) = -(e.Rate : Int)) := by
  unfold obeCmp
  split_ifs with h1 h2 <;> constructor <;> intro h <;>
    first
    | omega
    | simp at h

/-- Key preservation lemma for one side of `applyDiff`, abstracted over
a strict key `K` (the rate for the ask side, the negated rate for the
bid side): if the side is strictly increasing in `K` and within
capacity, so is the result of applying one diff entry. -/
theorem applyDiffSide_wf (K : OrderBookEntry → Int)
    (after : OrderBookEntry → OrderBookEntry → Bool)
    (hafter : ∀ o e, after o e = decide (K e < K o))
    (hcmp : ∀ o e, obeCmp o e = 0 ↔ K o = K e)
    (md : Nat) (ett : List OrderBookEntry) (obe : OrderBookEntry)
    (hsort : ett.Pairwise (fun a b => K a < K b))
    (hlen : ett.length ≤ md) :
    (applyDiffSide after md ett obe).Pairwise (fun a b => K a < K b) ∧
    (applyDiffSide after md ett obe).length ≤ md := by
  have hmono : ∀ k k', k' < ett.length → k < k' →
      K (ett.getD k ⟨0, 0, 0, 0⟩) < K (ett.getD k' ⟨0, 0, 0, 0⟩) := by
    intro k k' hk' hkk
    rw [List.getD_eq_getElem _ _ (by omega), List.getD_eq_getElem _ _ hk']
    exact List.pairwise_iff_getElem.mp hsort k k' (by omega) hk' hkk
  by_cases hdel : obe.Rate = 0
  · -- deletion
    have htoD : (obe.Rate == 0) = true := by simp [hdel]
    simp only [applyDiffSide, htoD, if_true, Bool.not_true,
      Bool.false_eq_true, if_false, Bool.or_true, Bool.and_false]
    by_cases hil : ett.findIdx (fun e => e.Id == obe.Id) < ett.length
    · rw [if_pos hil, if_pos (by omega)]
      have hdst : (ett.take (ett.findIdx (fun e => e.Id == obe.Id))).length
          = ett.findIdx (fun e => e.Id == obe.Id) := by
        rw [List.length_take]
        omega
      rw [hdst, if_neg (by omega), Int.toNat_natCast, List.take_length]
      have hsub : (ett.take (ett.findIdx (fun e => e.Id == obe.Id)) ++
          ett.drop (ett.findIdx (fun e => e.Id == obe.Id) + 1)).Sublist
          ett := by
        conv_rhs =>
          rw [← List.take_append_drop (ett.findIdx (fun e => e.Id == obe.Id))
            ett]
        refine List.Sublist.append_left ?_ _
        have h2 := List.drop_sublist 1
          (ett.drop (ett.findIdx (fun e => e.Id == obe.Id)))
        rw [List.drop_drop] at h2
        exact h2
      refine ⟨hsort.sublist hsub, ?_⟩
      have h3 := hsub.length_le
      omega
    · rw [if_neg hil]
      exact ⟨hsort, hlen⟩
  · -- insertion or replacement
    have htoD : (obe.Rate == 0) = false := by simp [hdel]
    set c := (ett.takeWhile (fun e => after obe e)).length with hcdef
    have hcn : c ≤ ett.length := by
      rw [hcdef]
      exact (List.takeWhile_prefix _).length_le
    have htakeW : ett.take c = ett.takeWhile (fun e => after obe e) := by
      rw [hcdef]
      exact (List.prefix_iff_eq_take.mp (List.takeWhile_prefix _)).symm
    have hA : ∀ x ∈ ett.take c, K x < K obe := by
      intro x hx
      rw [htakeW] at hx
      have h2 := List.mem_takeWhile_imp hx
      rw [hafter] at h2
      simpa using h2
    have hgetc : ∀ k, k < c → after obe (ett.getD k ⟨0, 0, 0, 0⟩) = true := by
      intro k hk
      have hkn : k < ett.length := by omega
      rw [List.getD_eq_getElem _ _ hkn, hafter]
      refine decide_eq_true (hA ett[k] ?_)
      have hlt : k < (ett.take c).length := by
        rw [List.length_take]
        omega
      have hmem := List.getElem_mem hlt
      rw [List.getElem_take] at hmem
      exact hmem
    have hheadc : c < ett.length → ¬ (K (ett.getD c ⟨0, 0, 0, 0⟩) < K obe) := by
      intro hcl
      have hdropW : ett.drop c = ett.dropWhile (fun e => after obe e) := by
        have h2 := List.drop_left (ett.takeWhile (fun e => after obe e))
          (ett.dropWhile (fun e => after obe e))
        rw [List.takeWhile_append_dropWhile] at h2
        rw [hcdef]
        exact h2
      have hgd : ett.getD c ⟨0, 0, 0, 0⟩
          = (ett.drop c).getD 0 ⟨0, 0, 0, 0⟩ := by
        rw [List.getD_eq_getElem?_getD, List.getD_eq_getElem?_getD,
          List.getElem?_drop]
        simp
      rw [hgd, hdropW]
      cases hdw : ett.dropWhile (fun e => after obe e) with
      | nil =>
          exfalso
          have h5 : ett.drop c = [] := hdropW.trans hdw
          have h3 := congrArg List.length h5
          rw [List.length_drop] at h3
          simp at h3
          omega
      | cons b tl =>
          have hb := dropWhile_head_false (fun e => after obe e) ett b tl hdw
          have hb2 : after obe b = false := hb
          rw [hafter] at hb2
          rw [List.getD_cons_zero]
          intro hcon
          have h4 : decide (K b < K obe) = true := decide_eq_true hcon
          rw [hb2] at h4
          exact Bool.noConfusion h4
    have hcfalse : ∀ k, c ≤ k → k < ett.length →
        ¬ (K (ett.getD k ⟨0, 0, 0, 0⟩) < K obe) := by
      intro k hck hkl
      have hc1 := hheadc (by omega)
      by_cases hkc : k = c
      · rw [hkc]
        exact hc1
      · have hm := hmono c k hkl (by omega)
        omega
    have hp : ∀ k, k < ett.length →
        ((fun h => after obe (ett.getD h ⟨0, 0, 0, 0⟩)) k = true ↔ k < c) := by
      intro k hk
      constructor
      · intro h2
        by_contra hcon
        have h3 : after obe (ett.getD k ⟨0, 0, 0, 0⟩) = true := h2
        rw [hafter] at h3
        exact hcfalse k (by omega) hk (by simpa using h3)
      · intro h2
        exact hgetc k h2
    have hi : bsLoop (fun h => after obe (ett.getD h ⟨0, 0, 0, 0⟩))
        ett.length 0 ett.length = c :=
      bsLoop_eq _ c ett.length hcn hp ett.length 0 ett.length (by omega)
        hcn (le_refl _) (by omega)
    simp only [applyDiffSide, htoD, Bool.false_eq_true, if_false,
      Bool.not_false, if_true, Bool.or_false, Bool.and_true, hi]
    by_cases hcl : c < ett.length
    · rw [if_pos hcl]
      have hdst : (ett.take c ++ [obe]).length = c + 1 := by
        rw [List.length_append, List.length_take]
        simp
        omega
      by_cases hr : (obeCmp obe (ett.getD c ⟨0, 0, 0, 0⟩) == 0) = true
      · -- replacement at equal key
        simp only [hr, if_true]
        rw [if_pos (by omega : c + 1 ≤ ett.length), hdst,
          if_neg (by omega), Int.toNat_natCast, List.take_length]
        have hKc : K obe = K (ett.getD c ⟨0, 0, 0, 0⟩) :=
          (hcmp _ _).mp (by simpa using hr)
        constructor
        · rw [List.pairwise_append]
          refine ⟨?_, hsort.sublist (List.drop_sublist _ _), ?_⟩
          · rw [List.pairwise_append]
            refine ⟨hsort.sublist (List.take_sublist c ett),
              List.pairwise_singleton _ _, ?_⟩
            intro x hx y hy
            rw [List.mem_singleton] at hy
            rw [hy]
            exact hA x hx
          · intro x hx y hy
            have hy' : y ∈ (ett.take ett.length).drop (c + 1) := by
              rw [List.take_length]
              exact hy
            obtain ⟨k, hk1, hk2, hk3, hkv⟩ :=
              mem_drop_take ett (c + 1) ett.length ⟨0, 0, 0, 0⟩ y hy'
            have hm := hmono c k hk3 (by omega)
            rw [hkv] at hm
            have hy2 : K obe < K y := by omega
            rcases List.mem_append.mp hx with h5 | h5
            · have h6 := hA x h5
              omega
            · rw [List.mem_singleton] at h5
              rw [h5]
              exact hy2
        · rw [List.length_append, hdst, List.length_drop]
          omega
      · -- insertion at new key
        simp only [hr, Bool.false_eq_true, if_false]
        rw [if_pos (by omega : c ≤ ett.length), hdst]
        have hKne : K obe ≠ K (ett.getD c ⟨0, 0, 0, 0⟩) := by
          intro hcon
          have h7 := (hcmp obe (ett.getD c ⟨0, 0, 0, 0⟩)).mpr hcon
          rw [h7] at hr
          simp at hr
        have hy2 : ∀ xlN : Nat, ∀ y ∈ (ett.take xlN).drop c, K obe < K y := by
          intro xlN y hy
          obtain ⟨k, hk1, hk2, hk3, hkv⟩ :=
            mem_drop_take ett c xlN ⟨0, 0, 0, 0⟩ y hy
          have h6 := hcfalse c (le_refl c) hcl
          by_cases hkc : k = c
          · rw [hkc] at hkv
            rw [← hkv]
            omega
          · have hm := hmono c k hk3 (by omega)
            rw [hkv] at hm
            omega
        have hPW : ∀ xlN : Nat,
            ((ett.take c ++ [obe]) ++ (ett.take xlN).drop c).Pairwise
              (fun a b => K a < K b) := by
          intro xlN
          rw [List.pairwise_append]
          refine ⟨?_, hsort.sublist ((List.drop_sublist _ _).trans
            (List.take_sublist _ _)), ?_⟩
          · rw [List.pairwise_append]
            refine ⟨hsort.sublist (List.take_sublist c ett),
              List.pairwise_singleton _ _, ?_⟩
            intro x hx y hy
            rw [List.mem_singleton] at hy
            rw [hy]
            exact hA x hx
          · intro x hx y hy
            have hy3 := hy2 xlN y hy
            rcases List.mem_append.mp hx with h5 | h5
            · have h6 := hA x h5
              omega
            · rw [List.mem_singleton] at h5
              rw [h5]
              exact hy3
        constructor
        · exact hPW _
        · rw [List.length_append, hdst, List.length_drop, List.length_take]
          by_cases hxc : (ett.length : Int) > ((md : Int) - ↑(c + 1)) + ↑c
          · rw [if_pos hxc]
            omega
          · rw [if_neg hxc]
            omega
    · rw [if_neg hcl]
      by_cases hnm : ett.length < md
      · rw [if_pos (decide_eq_true hnm)]
        constructor
        · rw [List.pairwise_append]
          refine ⟨hsort, List.pairwise_singleton _ _, ?_⟩
          intro x hx y hy
          rw [List.mem_singleton] at hy
          rw [hy]
          apply hA
          have hceq : c = ett.length := by omega
          rw [hceq, List.take_length]
          exact hx
        · simp
          omega
      · rw [if_neg (by simp [hnm])]
        exact ⟨hsort, hlen⟩

/-- C6: `applyDiff` preserves well-formedness — strict rate ordering on
both sides and the capacity bounds — for a single diff and for any
sequence of diffs. -/
theorem C6_applyDiff_preserves_wf :
    (∀ (mdBid mdAsk : Nat) (ob : OrderBook) (diff : OrderBookEntryDiff),
      obWF mdBid mdAsk ob →
      obWF mdBid mdAsk (applyDiff mdBid mdAsk ob diff)) ∧
    (∀ (mdBid mdAsk : Nat) (ob : OrderBook)
        (diffs : List OrderBookEntryDiff),
      obWF mdBid mdAsk ob →
      obWF mdBid mdAsk (diffs.foldl (applyDiff mdBid mdAsk) ob)) := by
  have hstep : ∀ (mdBid mdAsk : Nat) (ob : OrderBook)
      (diff : OrderBookEntryDiff), obWF mdBid mdAsk ob →
      obWF mdBid mdAsk (applyDiff mdBid mdAsk ob diff) := by
    intro mdBid mdAsk ob diff hwf
    obtain ⟨hB, hBl, hA2, hAl⟩ := hwf
    unfold applyDiff
    by_cases hside : diff.Side = Side.bid
    · rw [if_pos hside]
      have hBmono : ob.Bid.Pairwise
          (fun a b => -(a.Rate : Int) < -(b.Rate : Int)) := by
        refine hB.imp ?_
        intro a b hab
        omega
      have h2 := applyDiffSide_wf (fun x => -(x.Rate : Int))
        (fun o e => decide (obeCmp o e < 0))
        (fun o e => obeCmp_lt o e) (fun o e => obeCmp_zero_neg o e)
        mdBid ob.Bid diff.Obe hBmono hBl
      have h3 : (applyDiffSide (fun o e => decide (obeCmp o e < 0)) mdBid
          ob.Bid diff.Obe).Pairwise
          (fun a b => -(a.Rate : Int) < -(b.Rate : Int)) := h2.1
      refine ⟨h3.imp ?_, h2.2, hA2, hAl⟩
      intro a b hab
      omega
    · rw [if_neg hside]
      have hAmono : ob.Ask.Pairwise
          (fun a b => (a.Rate : Int) < (b.Rate : Int)) := by
        refine hA2.imp ?_
        intro a b hab
        omega
      have h2 := applyDiffSide_wf (fun x => (x.Rate : Int))
        (fun o e => decide (obeCmp o e > 0))
        (fun o e => obeCmp_gt o e) (fun o e => obeCmp_zero o e)
        mdAsk ob.Ask diff.Obe hAmono hAl
      have h3 : (applyDiffSide (fun o e => decide (obeCmp o e > 0)) mdAsk
          ob.Ask diff.Obe).Pairwise
          (fun a b => (a.Rate : Int) < (b.Rate : Int)) := h2.1
      refine ⟨hB, hBl, h3.imp ?_, h2.2⟩
      intro a b hab
      omega
  refine ⟨hstep, ?_⟩
  intro mdBid mdAsk ob diffs
  induction diffs generalizing ob with
  | nil => intro h; exact h
  | cons dd ds ih =>
      intro h
      exact ih _ (hstep _ _ _ _ h)

/-- Witness for C6: the theorem applied to the concrete book `obC6` and
the diff sequence `dsC6` at capacity 3. -/
theorem C6_applyDiff_preserves_wf_witness :
    obWF 3 3 (applyDiff 3 3 obC6 ⟨Side.offer, ⟨5, 2, 7, 250⟩⟩) ∧
    obWF 3 3 (dsC6.foldl (applyDiff 3 3) obC6) :=
  ⟨C6_applyDiff_preserves_wf.1 3 3 obC6 ⟨Side.offer, ⟨5, 2, 7, 250⟩⟩
      (by decide),
    C6_applyDiff_preserves_wf.2 3 3 obC6 dsC6 (by decide)⟩

end BBC
